import Mathlib

/-! # gemnasium/migrate: driver execution contract

A shallow embedding of the `Migrate` method of the bash, crate, mysql, phoenix and
postgres drivers, of the statement splitter `splitContent` of the crate driver, of
the option parsing of the postgres driver and of the error text the mysql and phoenix
drivers compose for a failed statement.

Texts are sequences of Unicode code points (a Go string holding valid UTF-8).
A call of `Migrate` is modelled as a function from the outcomes of the operations of
the connection (`World`), the rows of `schema_migrations` before the call and the file
to the trace of the operations performed, in program order, together with the rows of
`schema_migrations` afterwards.
-/

namespace Migrate

/-! ## Texts -/

/-- A Go string or byte slice, as its sequence of code points. -/
abbrev Text := List Char

/-- Go `unicode.IsSpace`: the Latin-1 spaces `\t \n \v \f \r`, space, U+0085, U+00A0,
and the other code points of the Unicode property White_Space. -/
def IsSpace (c : Char) : Bool :=
  let n := c.toNat
  (0x09 ≤ n && n ≤ 0x0D) || n == 0x20 || n == 0x85 || n == 0xA0 || n == 0x1680 ||
  (0x2000 ≤ n && n ≤ 0x200A) || n == 0x2028 || n == 0x2029 || n == 0x202F ||
  n == 0x205F || n == 0x3000

/-- Go `strings.TrimSpace` and `bytes.TrimSpace`: the text without its leading and
trailing white space. -/
def TrimSpace (s : Text) : Text :=
  ((s.dropWhile IsSpace).reverse.dropWhile IsSpace).reverse

/-- Go `strings.Split(s, sep)` and `bytes.Split(s, sep)` for a separator of one
character: the fragments between the separators, in order. A text without the
separator gives one fragment, the text itself (also when it is empty). -/
def Split : Text → Char → List Text
  | [], _ => [[]]
  | c :: cs, sep =>
    if c = sep then [] :: Split cs sep
    else
      match Split cs sep with
      | [] => [[c]]
      | frag :: frags => (c :: frag) :: frags

/-- Go `strings.Replace(s, old, "", -1)` for `old` of one character: every occurrence
of the character is removed. -/
def Remove (s : Text) (old : Char) : Text :=
  s.filter (fun c => c ≠ old)

/-- Go `strings.HasPrefix`. -/
def HasPrefix (s pre : Text) : Bool :=
  pre.isPrefixOf s

/-- Go `strings.TrimPrefix`: `s` without the leading `pre` when it has it. -/
def TrimPrefix (s pre : Text) : Text :=
  if HasPrefix s pre then s.drop pre.length else s

/-! ## crate: `splitContent` -/

namespace crate

/-- The loop of `splitContent` over the fragments: each fragment has its `;` removed
and is trimmed, and is appended to the result when it is not empty. -/
def splitContentLoop : List Text → List Text
  | [] => []
  | frag :: lines =>
    let line := TrimSpace (Remove frag ';')
    if line ≠ [] then line :: splitContentLoop lines else splitContentLoop lines

/-- The function `splitContent` of crate.go. -/
def splitContent (content : Text) : List Text :=
  splitContentLoop (Split content ';')

end crate

/-! ## postgres: file options -/

namespace postgres

/-- The constant `txDisabledOption`. -/
def txDisabledOption : Text := "disable_ddl_transaction".toList

/-- The function `fileOptions` of postgres.go: the options of the first line of the
content, `-- <option1> <option2> <...>`. -/
def fileOptions (content : Text) : List Text :=
  let firstLine := (Split content '\n').headD []
  if !HasPrefix firstLine "-- ".toList then []
  else Split (TrimPrefix firstLine "-- ".toList) ' '

/-- The function `txDisabled` of postgres.go. -/
def txDisabled : List Text → Bool
  | [] => false
  | v :: opts => if v = txDisabledOption then true else txDisabled opts

end postgres

/-! ## Files, errors and the pipe -/

/-- Modelled from the spec: the package `direction` is not part of the sources; the
direction of a file is the enum {Up, Down}. -/
inductive Direction
  | Up
  | Down
  deriving DecidableEq, Repr

/-- The fields of `file.File` the drivers read. -/
structure File where
  Version : Nat
  Direction : Direction
  Content : Text
  deriving DecidableEq, Repr

/-- The fields the drivers read of an error of the native type of the engine
(`*mysql.MySQLError`, `*avatica.ResponseError`, `*pq.Error`): `Message` is the field
`Message` (`ErrorMessage` for avatica), `ErrorText` the result of `Error()`, and
`Position`, `Severity` and `Code` are the fields of `pq.Error`. -/
structure NativeError where
  Message : Text
  ErrorText : Text
  Position : Text
  Severity : Text
  Code : Text
  deriving DecidableEq, Repr

/-- A Go `error` value returned by an operation of the connection or by
`ReadContent`: either its dynamic type is the native error type of the engine, or it
is any other error value (with the text of `Error()`). -/
inductive Error
  | native (e : NativeError)
  | other (text : Text)
  deriving DecidableEq, Repr

/-- A value written to the pipe: the file, an error value as returned by an
operation, or the error a driver composes with `errors.New` or `fmt.Errorf` from a
native error `e` and the text `src` it was executing. -/
inductive Message
  | file (f : File)
  | error (err : Error)
  | diagnostic (e : NativeError) (src : Text)
  deriving DecidableEq, Repr

/-- Whether a message of the pipe is an error value. -/
def Message.isError : Message → Bool
  | .file _ => false
  | .error _ => true
  | .diagnostic _ _ => true

/-- One step of a call of `Migrate`, in program order: a write to the pipe, the close
of the pipe, `driver.db.Begin()`, the statement on `schema_migrations`,
`f.ReadContent()`, `tx.Exec` and `driver.db.Exec` of a statement of the file,
`tx.Rollback()`, `tx.Commit()`, and a Go run-time panic. -/
inductive Event
  | send (m : Message)
  | close
  | begin
  | insertVersion (v : Nat)
  | deleteVersion (v : Nat)
  | readContent
  | txExec (stmt : Text)
  | dbExec (stmt : Text)
  | rollback
  | commit
  | panic
  deriving DecidableEq, Repr

/-! ## The database -/

/-- The rows of the table `schema_migrations`. -/
abbrev Ledger := List Nat

/-- The outcomes of the operations one call of `Migrate` can perform. `LedgerExec` is
a failure of the statement on `schema_migrations` for a reason other than a key
conflict, `Conflict` the error of a primary-key conflict, `ReadContent` the result of
`f.ReadContent()` (an error, or the content the file holds afterwards), `TxExec` and
`DbExec` the result of executing a statement inside the transaction and on the bare
connection, given the statements of the file executed before it in this call. -/
structure World where
  Begin : Option Error
  LedgerExec : Option Error
  Conflict : Error
  ReadContent : File → Except Error Text
  TxExec : List Text → Text → Option Error
  DbExec : List Text → Text → Option Error
  Rollback : Option Error
  Commit : Option Error

/-- The statement `INSERT INTO schema_migrations (version) VALUES (v)`: the column is
the primary key, so the insert fails when the version is already there. -/
def insertVersion (w : World) (L : Ledger) (v : Nat) : Except Error Ledger :=
  match w.LedgerExec with
  | some err => .error err
  | none => if v ∈ L then .error w.Conflict else .ok (L ++ [v])

/-- The statement `DELETE FROM schema_migrations WHERE version = v`. -/
def deleteVersion (w : World) (L : Ledger) (v : Nat) : Except Error Ledger :=
  match w.LedgerExec with
  | some err => .error err
  | none => .ok (L.filter (fun x => x ≠ v))

/-- The query `SELECT version FROM schema_migrations ORDER BY version DESC` of
`Versions()` in the crate, mysql, phoenix and postgres drivers. -/
def Versions (L : Ledger) : List Nat :=
  L.insertionSort (fun a b => a ≥ b)

/-- The method `Version()` of the crate, mysql, phoenix and postgres drivers: the first
row of the versions in descending order, and 0 on `sql.ErrNoRows`. -/
def Version (L : Ledger) : Nat :=
  match Versions L with
  | [] => 0
  | version :: _ => version

/-- What a call of `Migrate` did: its steps in program order, and the committed rows
of `schema_migrations` after it. -/
structure Outcome where
  events : List Event
  ledger : Ledger
  deriving DecidableEq, Repr

/-- The deferred `close(pipe)`: it runs last on every exit of `Migrate`. -/
def Outcome.deferClose (r : Outcome) : Outcome :=
  { r with events := r.events ++ [Event.close] }

/-- The step `if err := tx.Rollback(); err != nil { pipe <- err }`. -/
def rollbackSteps (w : World) : List Event :=
  match w.Rollback with
  | some err => [Event.rollback, Event.send (Message.error err)]
  | none => [Event.rollback]

/-- The step of the statement on `schema_migrations` for the direction of the file:
the insert for Up, the delete for Down. -/
def ledgerStep (f : File) : Event :=
  match f.Direction with
  | Direction.Up => Event.insertVersion f.Version
  | Direction.Down => Event.deleteVersion f.Version

/-- The result of the statement on `schema_migrations` for the direction of the file:
an error, or the rows afterwards. -/
def mutateLedger (w : World) (L : Ledger) (f : File) : Except Error Ledger :=
  match f.Direction with
  | Direction.Up => insertVersion w L f.Version
  | Direction.Down => deleteVersion w L f.Version

/-! ## bash -/

namespace bash

/-- The method `Migrate` of bash.go. -/
def Migrate (_w : World) (L : Ledger) (f : File) : Outcome :=
  Outcome.deferClose ⟨[Event.send (Message.file f)], L⟩

end bash

/-! ## crate -/

namespace crate

/-- The loop `for _, line := range lines` of `Migrate`: the steps, and the error at
which `Migrate` returned from inside the loop, given the statements executed so far. -/
def execLines (w : World) : List Text → List Text → List Event × Bool
  | [], _ => ([], false)
  | line :: lines, done =>
    match w.DbExec done line with
    | some err => ([Event.dbExec line, Event.send (Message.error err)], true)
    | none =>
      let r := execLines w lines (done ++ [line])
      (Event.dbExec line :: r.1, r.2)

/-- The body of `Migrate` of crate.go; the engine has no transaction, every statement
takes effect at once. -/
def body (w : World) (L : Ledger) (f : File) : Outcome :=
  match w.ReadContent f with
  | .error err =>
    ⟨[Event.send (Message.file f), Event.readContent, Event.send (Message.error err)], L⟩
  | .ok content =>
    let r := execLines w (splitContent content) []
    let pre := [Event.send (Message.file f), Event.readContent] ++ r.1
    if r.2 then ⟨pre, L⟩
    else
      match mutateLedger w L f with
      | .error err => ⟨pre ++ [ledgerStep f, Event.send (Message.error err)], L⟩
      | .ok L1 => ⟨pre ++ [ledgerStep f], L1⟩

/-- The method `Migrate` of crate.go. -/
def Migrate (w : World) (L : Ledger) (f : File) : Outcome :=
  Outcome.deferClose (body w L f)

end crate

/-! ## mysql -/

namespace mysql

/-- The loop `for _, sqlStmt := range sqlStmts` of `Migrate`: the steps, and whether
`Migrate` returned from inside the loop, given the statements executed so far. A
fragment that is empty after trimming is skipped. When `tx.Exec` fails with a native
error (`isErr`), the composed error is written, the transaction is rolled back and
`Migrate` returns; when it fails with an error of another type nothing is done and the
loop goes on to the next fragment. (`regexp.Compile` of the constant pattern does not
fail.) -/
def execStmts (w : World) : List Text → List Text → List Event × Bool
  | [], _ => ([], false)
  | frag :: sqlStmts, done =>
    let sqlStmt := TrimSpace frag
    if sqlStmt.length > 0 then
      match w.TxExec done sqlStmt with
      | some (Error.native mysqlErr) =>
        (Event.txExec sqlStmt :: Event.send (Message.diagnostic mysqlErr sqlStmt) ::
          rollbackSteps w, true)
      | some (Error.other _) =>
        let r := execStmts w sqlStmts (done ++ [sqlStmt])
        (Event.txExec sqlStmt :: r.1, r.2)
      | none =>
        let r := execStmts w sqlStmts (done ++ [sqlStmt])
        (Event.txExec sqlStmt :: r.1, r.2)
    else execStmts w sqlStmts done

/-- The body of `Migrate` of mysql.go. The rows of `schema_migrations` change only when
the transaction is committed. -/
def body (w : World) (L : Ledger) (f : File) : Outcome :=
  match w.Begin with
  | some err => ⟨[Event.send (Message.file f), Event.begin, Event.send (Message.error err)], L⟩
  | none =>
    match mutateLedger w L f with
    | .error err =>
      ⟨[Event.send (Message.file f), Event.begin, ledgerStep f,
        Event.send (Message.error err)] ++ rollbackSteps w, L⟩
    | .ok L1 =>
      match w.ReadContent f with
      | .error err =>
        ⟨[Event.send (Message.file f), Event.begin, ledgerStep f, Event.readContent,
          Event.send (Message.error err)], L⟩
      | .ok content =>
        let r := execStmts w (Split content ';') []
        let pre := [Event.send (Message.file f), Event.begin, ledgerStep f,
          Event.readContent] ++ r.1
        if r.2 then ⟨pre, L⟩
        else
          match w.Commit with
          | some err => ⟨pre ++ [Event.commit, Event.send (Message.error err)], L⟩
          | none => ⟨pre ++ [Event.commit], L1⟩

/-- The method `Migrate` of mysql.go. -/
def Migrate (w : World) (L : Ledger) (f : File) : Outcome :=
  Outcome.deferClose (body w L f)

end mysql

/-! ## phoenix -/

namespace phoenix

/-- The loop `for _, sqlStmt := range sqlStmts` of `Migrate`: the steps, and whether
`Migrate` returned from inside the loop, given the statements executed so far. A
fragment that is empty after trimming is skipped. When `tx.Exec` fails with a native
error (`isErr`), the composed error is written, the transaction is rolled back and
`Migrate` returns; when it fails with an error of another type nothing is done and the
loop goes on to the next fragment. (`regexp.Compile` of the constant pattern does not
fail.) -/
def execStmts (w : World) : List Text → List Text → List Event × Bool
  | [], _ => ([], false)
  | frag :: sqlStmts, done =>
    let sqlStmt := TrimSpace frag
    if sqlStmt.length > 0 then
      match w.TxExec done sqlStmt with
      | some (Error.native avaticaErr) =>
        (Event.txExec sqlStmt :: Event.send (Message.diagnostic avaticaErr sqlStmt) ::
          rollbackSteps w, true)
      | some (Error.other _) =>
        let r := execStmts w sqlStmts (done ++ [sqlStmt])
        (Event.txExec sqlStmt :: r.1, r.2)
      | none =>
        let r := execStmts w sqlStmts (done ++ [sqlStmt])
        (Event.txExec sqlStmt :: r.1, r.2)
    else execStmts w sqlStmts done

/-- The body of `Migrate` of phoenix.go. The rows of `schema_migrations` change only when
the transaction is committed. -/
def body (w : World) (L : Ledger) (f : File) : Outcome :=
  match w.Begin with
  | some err => ⟨[Event.send (Message.file f), Event.begin, Event.send (Message.error err)], L⟩
  | none =>
    match mutateLedger w L f with
    | .error err =>
      ⟨[Event.send (Message.file f), Event.begin, ledgerStep f,
        Event.send (Message.error err)] ++ rollbackSteps w, L⟩
    | .ok L1 =>
      match w.ReadContent f with
      | .error err =>
        ⟨[Event.send (Message.file f), Event.begin, ledgerStep f, Event.readContent,
          Event.send (Message.error err)], L⟩
      | .ok content =>
        let r := execStmts w (Split content ';') []
        let pre := [Event.send (Message.file f), Event.begin, ledgerStep f,
          Event.readContent] ++ r.1
        if r.2 then ⟨pre, L⟩
        else
          match w.Commit with
          | some err => ⟨pre ++ [Event.commit, Event.send (Message.error err)], L⟩
          | none => ⟨pre ++ [Event.commit], L1⟩

/-- The method `Migrate` of phoenix.go. -/
def Migrate (w : World) (L : Ledger) (f : File) : Outcome :=
  Outcome.deferClose (body w L f)

end phoenix

/-! ## postgres -/

namespace postgres

/-- The step of the execution of the content: `driver.db.Exec` when the file disables
the transaction and `tx.Exec` otherwise. -/
def execStep (content : Text) : Event :=
  if txDisabled (fileOptions content) then Event.dbExec content else Event.txExec content

/-- The result of the execution of the content, on the bare connection when the file
disables the transaction and inside the transaction otherwise. -/
def execContent (w : World) (content : Text) : Option Error :=
  if txDisabled (fileOptions content) then w.DbExec [] content else w.TxExec [] content

/-- The body of `Migrate` of postgres.go. The type assertion `err.(*pq.Error)` is
unchecked: an error of another type panics. The rows of `schema_migrations` change
only when the transaction is committed. -/
def body (w : World) (L : Ledger) (f : File) : Outcome :=
  match w.Begin with
  | some err => ⟨[Event.send (Message.file f), Event.begin, Event.send (Message.error err)], L⟩
  | none =>
    match mutateLedger w L f with
    | .error err =>
      ⟨[Event.send (Message.file f), Event.begin, ledgerStep f,
        Event.send (Message.error err)] ++ rollbackSteps w, L⟩
    | .ok L1 =>
      match w.ReadContent f with
      | .error err =>
        ⟨[Event.send (Message.file f), Event.begin, ledgerStep f, Event.readContent,
          Event.send (Message.error err)], L⟩
      | .ok content =>
        let pre := [Event.send (Message.file f), Event.begin, ledgerStep f,
          Event.readContent, execStep content]
        match execContent w content with
        | some (Error.native pqErr) =>
          ⟨pre ++ Event.send (Message.diagnostic pqErr content) :: rollbackSteps w, L⟩
        | some (Error.other _) => ⟨pre ++ [Event.panic], L⟩
        | none =>
          match w.Commit with
          | some err => ⟨pre ++ [Event.commit, Event.send (Message.error err)], L⟩
          | none => ⟨pre ++ [Event.commit], L1⟩

/-- The method `Migrate` of postgres.go. -/
def Migrate (w : World) (L : Ledger) (f : File) : Outcome :=
  Outcome.deferClose (body w L f)

end postgres

/-! ## The registered drivers -/

/-- The drivers of the sources. -/
inductive Driver
  | bash
  | crate
  | mysql
  | phoenix
  | postgres
  deriving DecidableEq, Repr

/-- The method `Migrate` of a driver. -/
def Driver.Migrate : Driver → World → Ledger → File → Outcome
  | Driver.bash => bash.Migrate
  | Driver.crate => crate.Migrate
  | Driver.mysql => mysql.Migrate
  | Driver.phoenix => phoenix.Migrate
  | Driver.postgres => postgres.Migrate

/-! ## Reading a trace -/

/-- The messages written to the pipe, in order. -/
def sent : List Event → List Message
  | [] => []
  | Event.send m :: evs => m :: sent evs
  | _ :: evs => sent evs

/-- The error values written to the pipe, in order. -/
def errorsSent (evs : List Event) : List Message :=
  (sent evs).filter Message.isError

/-- The statements of the file given to the connection, in order. -/
def executed : List Event → List Text
  | [] => []
  | Event.txExec stmt :: evs => stmt :: executed evs
  | Event.dbExec stmt :: evs => stmt :: executed evs
  | _ :: evs => executed evs

/-- Whether the call returned: it did not end in a run-time panic. -/
def Outcome.returned (r : Outcome) : Bool :=
  !r.events.contains Event.panic

/-- Whether a step may follow the write of the file: it is not the close of the pipe,
and when it is a write to the pipe the value written is an error. -/
def Event.afterFile : Event → Bool
  | Event.send m => m.isError
  | Event.close => false
  | _ => true

/-! ## Sample inputs -/

/-- A world in which every operation succeeds and `ReadContent` leaves the content of
the file as it is. -/
def quietWorld : World where
  Begin := none
  LedgerExec := none
  Conflict := Error.native ⟨"Duplicate entry for key PRIMARY".toList, [], [], [], []⟩
  ReadContent := fun f => Except.ok f.Content
  TxExec := fun _ _ => none
  DbExec := fun _ _ => none
  Rollback := none
  Commit := none

/-- An error value that is not of the native error type of the engine, such as
`mysql.ErrPktTooLarge` or `driver.ErrBadConn`. -/
def plainError : Error := Error.other "packet for query is too large".toList

/-- A world in which the statement `a` fails inside the transaction with an error that
is not of the native type, and every other operation succeeds. -/
def plainFailureWorld : World :=
  { quietWorld with
    TxExec := fun _ stmt => if stmt = "a".toList then some plainError else none }

/-- The Up file of version 1 with the two statements `a` and `b`. -/
def upFileAB : File := ⟨1, Direction.Up, "a;b".toList⟩

/-- The Up file of version 1 with the statement `a`. -/
def upFileA : File := ⟨1, Direction.Up, "a".toList⟩

/-- The Down file of version 1 with the statement `a`. -/
def downFileA : File := ⟨1, Direction.Down, "a".toList⟩

/-! ## mysql and phoenix: the composed error -/

/-- The literal `at line ` of the patterns of mysql.go and phoenix.go. -/
def atLine : Text := "at line ".toList

/-- The class `[0-9]` of the patterns. -/
def isDigit (c : Char) : Bool :=
  '0'.toNat ≤ c.toNat && c.toNat ≤ '9'.toNat

/-- A match of `at line ([0-9]+)` at the start of a text: the digits of the group,
as many as there are, and the text after them. -/
def matchHere (s : Text) : Option (Text × Text) :=
  if atLine.isPrefixOf s then
    let digits := (s.drop atLine.length).takeWhile isDigit
    if digits = [] then none else some (digits, (s.drop atLine.length).dropWhile isDigit)
  else none

/-- Go `strconv.Atoi` on a text of decimal digits, for the 64-bit `int`: the number,
or no result (a range error) when it does not fit. -/
def Atoi (digits : Text) : Option Nat :=
  let n := digits.foldl (fun acc c => 10 * acc + (c.toNat - '0'.toNat)) 0
  if n < 2 ^ 63 then some n else none

/-- Go `fmt.Sprintf("at line %v", n)`. -/
def atLineText (n : Nat) : Text := atLine ++ (Nat.repr n).toList

/-- Removal of one trailing `\r`: `ReadLine` returns a line without its line end,
`\n` or `\r\n`. -/
def stripCR (line : Text) : Text :=
  if line.getLast? = some '\r' then line.dropLast else line

/-- The lines of a text given as its fragments between the `\n`: every fragment but
the last was ended by `\n`; the last one is a line only when it is not empty. -/
def readLinesOf : List Text → List Text
  | [] => []
  | [last] => if last = [] then [] else [last]
  | line :: rest => stripCR line :: readLinesOf rest

/-- The lines `b.ReadLine()` returns one after the other until it returns an error at
the end of the input (for lines that fit the buffer of the reader). -/
def readLines (s : Text) : List Text :=
  readLinesOf (Split s '\n')

/-- The loop that counts `wsLineOffset` over the lines read: it adds one for every
line for which `bytes.TrimSpace(line) == nil` and stops at the first other line or at
the end of the input. -/
def countBlankLines : List Text → Nat
  | [] => 0
  | line :: lines => if TrimSpace line = [] then countBlankLines lines + 1 else 0

/-- The value of `wsLineOffset` after the loop over `bufio.NewReader(bytes.NewBuffer(sqlStmt))`. -/
def wsLineOffset (sqlStmt : Text) : Nat :=
  countBlankLines (readLines sqlStmt)

/-- The number of leading blank lines a fragment of the file loses when it is trimmed
into a statement: the line ends in its leading white space. -/
def leadingBlankLines (frag : Text) : Nat :=
  (frag.takeWhile IsSpace).count '\n'

/-- Modelled from the spec: `file.LinesBeforeAndAfter` is not part of the sources; the
type of a context window function, from the content, the line number, the numbers of
lines before and after and the flag for line numbers to the text of the window. -/
abbrev ContextWindow := Text → Nat → Nat → Nat → Bool → Text

namespace mysql

/-- The group 1 of `re.FindStringSubmatch(s)` for the pattern `at line ([0-9]+)$` of
mysql.go, when the pattern matches: the match has to reach the end of the text. -/
def FindStringSubmatch : Text → Option Text
  | [] => none
  | c :: cs =>
    match matchHere (c :: cs) with
    | some (digits, []) => some digits
    | _ => FindStringSubmatch cs

/-- The result of `re.ReplaceAllString(src, repl)` for the pattern
`at line ([0-9]+)$` of mysql.go and a replacement without `$`. -/
def ReplaceAllString (src repl : Text) : Text :=
  match src with
  | [] => []
  | c :: cs =>
    match matchHere (c :: cs) with
    | some (_, []) => repl
    | _ => c :: ReplaceAllString cs repl

/-- The text of the error the mysql driver writes for a statement that failed with the
native error `mysqlErr`. The variable `err` tested by `if err == nil` is the one
declared by `re, err := regexp.Compile(...)`: it is nil unless the pattern matched
and `strconv.Atoi` failed. -/
def diagnosticText (LinesBeforeAndAfter : ContextWindow) (mysqlErr : NativeError)
    (sqlStmt : Text) : Text :=
  let parsed : Option Nat :=
    match FindStringSubmatch mysqlErr.Message with
    | some digits => Atoi digits
    | none => some 0
  match parsed with
  | some lineNo =>
    let message := ReplaceAllString mysqlErr.ErrorText (atLineText (lineNo + wsLineOffset sqlStmt))
    let errorPart := LinesBeforeAndAfter sqlStmt lineNo 5 5 true
    message ++ "\n\n".toList ++ errorPart
  | none => mysqlErr.ErrorText

end mysql

namespace phoenix

/-- The group 1 of `re.FindStringSubmatch(s)` for the pattern `at line ([0-9]+)` of
phoenix.go, when the pattern matches: the leftmost match. -/
def FindStringSubmatch : Text → Option Text
  | [] => none
  | c :: cs =>
    match matchHere (c :: cs) with
    | some (digits, _) => some digits
    | none => FindStringSubmatch cs

/-- The replacement of every match of `at line ([0-9]+)`, from left to right; `skip`
is the number of characters left of the match just replaced. -/
def replaceFrom (repl : Text) : Nat → Text → Text
  | _, [] => []
  | skip + 1, _ :: cs => replaceFrom repl skip cs
  | 0, c :: cs =>
    match matchHere (c :: cs) with
    | some (digits, _) => repl ++ replaceFrom repl (atLine.length + digits.length - 1) cs
    | none => c :: replaceFrom repl 0 cs

/-- The result of `re.ReplaceAllString(src, repl)` for the pattern `at line ([0-9]+)`
of phoenix.go and a replacement without `$`. -/
def ReplaceAllString (src repl : Text) : Text :=
  replaceFrom repl 0 src

/-- The text of the error the phoenix driver writes for a statement that failed with
the native error `avaticaErr`. The variable `err` tested by `if err == nil` is the one
declared by `re, err := regexp.Compile(...)`: it is nil unless the pattern matched
and `strconv.Atoi` failed. -/
def diagnosticText (LinesBeforeAndAfter : ContextWindow) (avaticaErr : NativeError)
    (sqlStmt : Text) : Text :=
  let parsed : Option Nat :=
    match FindStringSubmatch avaticaErr.Message with
    | some digits => Atoi digits
    | none => some 0
  match parsed with
  | some lineNo =>
    let message :=
      ReplaceAllString avaticaErr.ErrorText (atLineText (lineNo + wsLineOffset sqlStmt))
    let errorPart := LinesBeforeAndAfter sqlStmt lineNo 5 5 true
    message ++ "\n\n".toList ++ errorPart
  | none => avaticaErr.ErrorText

end phoenix

/-! ## The splitter in the words of the specification -/

/-- The text made of the given fragments with one separator between every two
consecutive fragments: a text is cut at every separator into fragments `frags` when it
is `joinWith sep frags` and no fragment holds the separator. -/
def joinWith (sep : Char) : List Text → Text
  | [] => []
  | [frag] => frag
  | frag :: next :: frags => frag ++ sep :: joinWith sep (next :: frags)

/-! ## postgres: the directive in the words of the specification -/

/-- The text before the first newline of a content. -/
def firstLineOf (content : Text) : Text :=
  content.takeWhile (fun c => c ≠ '\n')

/-- The text `tok` is one of the tokens of `line` separated by single spaces: it
stands in the line between the start of the line or a space and the end of the line or
a space. (For a text `tok` without a space.) -/
def IsToken (tok line : Text) : Prop :=
  ∃ a b, line = a ++ tok ++ b ∧ (a = [] ∨ ∃ a', a = a' ++ [' ']) ∧
    (b = [] ∨ ∃ b', b = ' ' :: b')

/-- The directive as the specification words it: the first line starts with `-- ` and,
once that prefix is removed, one of its tokens separated by single spaces is
`disable_ddl_transaction`. -/
def specDisablesTransaction (content : Text) : Prop :=
  ∃ opts, firstLineOf content = "-- ".toList ++ opts ∧
    IsToken postgres.txDisabledOption opts

/-! ## Sample inputs for the composed error and the transaction -/

/-- A native error whose message ends with a line number. -/
def lineError : NativeError :=
  ⟨"You have an error in your SQL syntax near b at line 1".toList,
    "Error 1064: You have an error in your SQL syntax near b at line 1".toList, [], [], []⟩

/-- A native error whose message holds no line number. -/
def noLineError : NativeError :=
  ⟨"Unknown column x".toList, "Error 1054: Unknown column x".toList, [], [], []⟩

/-- A world in which the statement `b` fails inside the transaction with `lineError`,
and every other operation succeeds. -/
def lineFailureWorld : World :=
  { quietWorld with
    TxExec := fun _ stmt => if stmt = "b".toList then some (Error.native lineError) else none }

/-- A world in which the statement `a` fails inside the transaction with
`noLineError`, and every other operation succeeds. -/
def noLineFailureWorld : World :=
  { quietWorld with
    TxExec := fun _ stmt =>
      if stmt = "a".toList then some (Error.native noLineError) else none }

/-- A world in which `ReadContent` fails, and every other operation succeeds. -/
def readFailureWorld : World :=
  { quietWorld with ReadContent := fun _ => Except.error plainError }

/-- The Up file of version 1 whose second statement `b` follows two line ends. -/
def upFileBlank : File := ⟨1, Direction.Up, "a;\n\nb".toList⟩

/-- The Up file of version 1 whose first line is the directive that disables the
transaction. -/
def upFileNoTx : File := ⟨1, Direction.Up, "-- disable_ddl_transaction\na".toList⟩

/-! ## Reading a trace: lemmas -/

theorem sent_append (a b : List Event) : sent (a ++ b) = sent a ++ sent b := by
  induction a with
  | nil => rfl
  | cons e a ih => cases e <;> simp [sent, ih]

theorem errorsSent_append (a b : List Event) :
    errorsSent (a ++ b) = errorsSent a ++ errorsSent b := by
  simp [errorsSent, sent_append]

@[simp] theorem errorsSent_nil : errorsSent [] = [] := rfl

@[simp] theorem errorsSent_send_error (err : Error) (a : List Event) :
    errorsSent (Event.send (Message.error err) :: a) = Message.error err :: errorsSent a := by
  simp [errorsSent, sent, Message.isError]

@[simp] theorem errorsSent_send_diagnostic (e : NativeError) (src : Text) (a : List Event) :
    errorsSent (Event.send (Message.diagnostic e src) :: a) =
      Message.diagnostic e src :: errorsSent a := by
  simp [errorsSent, sent, Message.isError]

@[simp] theorem errorsSent_send_file (f : File) (a : List Event) :
    errorsSent (Event.send (Message.file f) :: a) = errorsSent a := by
  simp [errorsSent, sent, Message.isError]

@[simp] theorem errorsSent_close (a : List Event) :
    errorsSent (Event.close :: a) = errorsSent a := rfl

@[simp] theorem errorsSent_begin (a : List Event) :
    errorsSent (Event.begin :: a) = errorsSent a := rfl

@[simp] theorem errorsSent_insertVersion (v : Nat) (a : List Event) :
    errorsSent (Event.insertVersion v :: a) = errorsSent a := rfl

@[simp] theorem errorsSent_deleteVersion (v : Nat) (a : List Event) :
    errorsSent (Event.deleteVersion v :: a) = errorsSent a := rfl

@[simp] theorem errorsSent_readContent (a : List Event) :
    errorsSent (Event.readContent :: a) = errorsSent a := rfl

@[simp] theorem errorsSent_txExec (stmt : Text) (a : List Event) :
    errorsSent (Event.txExec stmt :: a) = errorsSent a := rfl

@[simp] theorem errorsSent_dbExec (stmt : Text) (a : List Event) :
    errorsSent (Event.dbExec stmt :: a) = errorsSent a := rfl

@[simp] theorem errorsSent_rollback (a : List Event) :
    errorsSent (Event.rollback :: a) = errorsSent a := rfl

@[simp] theorem errorsSent_commit (a : List Event) :
    errorsSent (Event.commit :: a) = errorsSent a := rfl

@[simp] theorem errorsSent_panic (a : List Event) :
    errorsSent (Event.panic :: a) = errorsSent a := rfl

/-- The statement on `schema_migrations` writes nothing to the pipe. -/
@[simp] theorem errorsSent_ledgerStep (f : File) (a : List Event) :
    errorsSent (ledgerStep f :: a) = errorsSent a := by
  unfold ledgerStep
  cases f.Direction <;> rfl

theorem executed_append (a b : List Event) : executed (a ++ b) = executed a ++ executed b := by
  induction a with
  | nil => rfl
  | cons e a ih => cases e <;> simp [executed, ih]

theorem crate_execLines_returned (w : World) (lines done : List Text)
    (h : (crate.execLines w lines done).2 = true) :
    errorsSent (crate.execLines w lines done).1 ≠ [] := by
  induction lines generalizing done with
  | nil => simp [crate.execLines] at h
  | cons line lines ih =>
    unfold crate.execLines at h ⊢
    cases hx : w.DbExec done line with
    | some err => simp
    | none =>
      rw [hx] at h
      simpa using ih _ h

/-- A call of crate `Migrate` that writes no error has run the statement on
`schema_migrations` with success, and its result is the ledger afterwards. -/
theorem crate_ledger_of_no_error (w : World) (L : Ledger) (f : File)
    (h : errorsSent (crate.Migrate w L f).events = []) :
    mutateLedger w L f = Except.ok (crate.Migrate w L f).ledger := by
  unfold crate.Migrate crate.body Outcome.deferClose at h ⊢
  cases hrc : w.ReadContent f with
  | error err => rw [hrc] at h; simp at h
  | ok content =>
    rw [hrc] at h
    simp only at h ⊢
    cases hl : (crate.execLines w (crate.splitContent content) []).2 with
    | true =>
      rw [hl] at h
      have := crate_execLines_returned w _ _ hl
      simp [errorsSent_append] at h
      exact absurd h this
    | false =>
      rw [hl] at h
      cases hm : mutateLedger w L f with
      | error err =>
        rw [hm] at h
        simp [errorsSent_append] at h
      | ok L1 => simp

/-- The loops of the phoenix and of the mysql driver take the same steps. -/
theorem phoenix_execStmts_eq (w : World) (stmts done : List Text) :
    phoenix.execStmts w stmts done = mysql.execStmts w stmts done := by
  induction stmts generalizing done with
  | nil => rfl
  | cons frag stmts ih =>
    unfold phoenix.execStmts mysql.execStmts
    simp only [ih]

/-- The phoenix and the mysql driver take the same steps. -/
theorem phoenix_Migrate_eq (w : World) (L : Ledger) (f : File) :
    phoenix.Migrate w L f = mysql.Migrate w L f := by
  unfold phoenix.Migrate mysql.Migrate phoenix.body mysql.body
  simp only [phoenix_execStmts_eq]

theorem mysql_execStmts_returned (w : World) (stmts done : List Text)
    (h : (mysql.execStmts w stmts done).2 = true) :
    errorsSent (mysql.execStmts w stmts done).1 ≠ [] := by
  induction stmts generalizing done with
  | nil => simp [mysql.execStmts] at h
  | cons frag stmts ih =>
    unfold mysql.execStmts at h ⊢
    simp only at h ⊢
    split
    · split
      · simp
      · rename_i hx
        rw [if_pos (by assumption), hx] at h
        simpa using ih _ h
      · rename_i hx
        rw [if_pos (by assumption), hx] at h
        simpa using ih _ h
    · rw [if_neg (by assumption)] at h
      exact ih _ h

/-- A call of mysql `Migrate` that writes no error has committed the statement on
`schema_migrations`, and its result is the ledger afterwards. -/
theorem mysql_ledger_of_no_error (w : World) (L : Ledger) (f : File)
    (h : errorsSent (mysql.Migrate w L f).events = []) :
    mutateLedger w L f = Except.ok (mysql.Migrate w L f).ledger := by
  unfold mysql.Migrate mysql.body Outcome.deferClose at h ⊢
  cases hb : w.Begin with
  | some err => rw [hb] at h; simp at h
  | none =>
    rw [hb] at h
    simp only at h ⊢
    cases hm : mutateLedger w L f with
    | error err => rw [hm] at h; simp at h
    | ok L1 =>
      rw [hm] at h
      simp only at h ⊢
      cases hrc : w.ReadContent f with
      | error err => rw [hrc] at h; simp at h
      | ok content =>
        rw [hrc] at h
        simp only at h ⊢
        cases hl : (mysql.execStmts w (Split content ';') []).2 with
        | true =>
          rw [hl] at h
          have := mysql_execStmts_returned w _ _ hl
          simp [errorsSent_append] at h
          exact absurd h this
        | false =>
          rw [hl] at h
          cases hc : w.Commit with
          | some err => rw [hc] at h; simp [errorsSent_append] at h
          | none => simp

@[simp] theorem postgres_errorsSent_execStep (content : Text) (a : List Event) :
    errorsSent (postgres.execStep content :: a) = errorsSent a := by
  unfold postgres.execStep
  split <;> rfl

theorem returned_append_close (evs : List Event) (L : Ledger) :
    (Outcome.deferClose ⟨evs, L⟩).returned = !evs.contains Event.panic := by
  simp [Outcome.returned, Outcome.deferClose]

/-- A call of postgres `Migrate` that returns and writes no error has committed the
statement on `schema_migrations`, and its result is the ledger afterwards. -/
theorem postgres_ledger_of_no_error (w : World) (L : Ledger) (f : File)
    (hret : (postgres.Migrate w L f).returned = true)
    (h : errorsSent (postgres.Migrate w L f).events = []) :
    mutateLedger w L f = Except.ok (postgres.Migrate w L f).ledger := by
  unfold postgres.Migrate postgres.body at h hret ⊢
  cases hb : w.Begin with
  | some err => rw [hb] at h; simp [Outcome.deferClose] at h
  | none =>
    rw [hb] at h hret
    simp only at h hret ⊢
    cases hm : mutateLedger w L f with
    | error err => rw [hm] at h; simp [Outcome.deferClose] at h
    | ok L1 =>
      rw [hm] at h hret
      simp only at h hret ⊢
      cases hrc : w.ReadContent f with
      | error err => rw [hrc] at h; simp [Outcome.deferClose] at h
      | ok content =>
        rw [hrc] at h hret
        simp only at h hret ⊢
        cases hx : postgres.execContent w content with
        | some err =>
          rw [hx] at h hret
          cases err with
          | native pqErr => simp [Outcome.deferClose, errorsSent_append] at h
          | other text => simp [returned_append_close] at hret
        | none =>
          rw [hx] at h
          cases hc : w.Commit with
          | some err => rw [hc] at h; simp [Outcome.deferClose, errorsSent_append] at h
          | none => simp [Outcome.deferClose]

/-- In each driver with a ledger, a call of `Migrate` that returns and writes no error
has applied the statement on `schema_migrations`: its result is the ledger afterwards. -/
theorem Driver_ledger_of_no_error (d : Driver) (hd : d ≠ Driver.bash) (w : World)
    (L : Ledger) (f : File) (hret : (d.Migrate w L f).returned = true)
    (h : errorsSent (d.Migrate w L f).events = []) :
    mutateLedger w L f = Except.ok (d.Migrate w L f).ledger := by
  cases d with
  | bash => exact absurd rfl hd
  | crate => exact crate_ledger_of_no_error w L f h
  | mysql => exact mysql_ledger_of_no_error w L f h
  | phoenix =>
    simp only [Driver.Migrate, phoenix_Migrate_eq] at h ⊢
    exact mysql_ledger_of_no_error w L f h
  | postgres => exact postgres_ledger_of_no_error w L f hret h

theorem insertVersion_ok (w : World) (L L1 : Ledger) (v : Nat)
    (h : insertVersion w L v = Except.ok L1) : v ∉ L ∧ L1 = L ++ [v] := by
  unfold insertVersion at h
  cases hl : w.LedgerExec with
  | some err => rw [hl] at h; simp at h
  | none =>
    rw [hl] at h
    by_cases hv : v ∈ L
    · simp [hv] at h
    · simp only [hv, if_false] at h
      exact ⟨hv, (Except.ok.inj h).symm⟩

theorem deleteVersion_ok (w : World) (L L1 : Ledger) (v : Nat)
    (h : deleteVersion w L v = Except.ok L1) : L1 = L.filter (fun x => x ≠ v) := by
  unfold deleteVersion at h
  cases hl : w.LedgerExec with
  | some err => rw [hl] at h; simp at h
  | none =>
    rw [hl] at h
    exact (Except.ok.inj h).symm

/-- The method `Version()` returns the greatest version of a ledger that is not
empty. -/
theorem Version_greatest (L : Ledger) (hne : L ≠ []) :
    Version L ∈ L ∧ ∀ x ∈ L, x ≤ Version L := by
  unfold Version Versions
  have hperm : (L.insertionSort (fun a b => a ≥ b)).Perm L := List.perm_insertionSort _ L
  have hsorted : (L.insertionSort (fun a b => a ≥ b)).Sorted (fun a b => a ≥ b) :=
    List.sorted_insertionSort _ L
  cases hs : L.insertionSort (fun a b => a ≥ b) with
  | nil =>
    rw [hs] at hperm
    exact absurd (List.Perm.eq_nil hperm.symm) hne
  | cons version rest =>
    rw [hs] at hperm hsorted
    refine ⟨hperm.subset (List.mem_cons_self _ _), fun x hx => ?_⟩
    have hx1 : x ∈ version :: rest := hperm.symm.subset hx
    rcases List.mem_cons.mp hx1 with rfl | hx2
    · exact le_refl _
    · exact List.rel_of_sorted_cons hsorted x hx2

/-! ## A call that reports an error -/

theorem mysql_execStmts_not_returned (w : World) (stmts done : List Text)
    (h : (mysql.execStmts w stmts done).2 = false) :
    errorsSent (mysql.execStmts w stmts done).1 = [] := by
  induction stmts generalizing done with
  | nil => rfl
  | cons frag stmts ih =>
    unfold mysql.execStmts at h ⊢
    simp only at h ⊢
    split
    · split
      · rename_i hx
        rw [if_pos (by assumption), hx] at h
        simp at h
      · rename_i hx
        rw [if_pos (by assumption), hx] at h
        simpa using ih _ h
      · rename_i hx
        rw [if_pos (by assumption), hx] at h
        simpa using ih _ h
    · rw [if_neg (by assumption)] at h
      exact ih _ h

theorem crate_execLines_not_returned (w : World) (lines done : List Text)
    (h : (crate.execLines w lines done).2 = false) :
    errorsSent (crate.execLines w lines done).1 = [] := by
  induction lines generalizing done with
  | nil => rfl
  | cons line lines ih =>
    unfold crate.execLines at h ⊢
    cases hx : w.DbExec done line with
    | some err => rw [hx] at h; simp at h
    | none =>
      rw [hx] at h
      simpa using ih _ h

/-- In every driver, a call of `Migrate` that writes an error to the pipe leaves the
ledger as it was. -/
theorem Driver_ledger_of_error (d : Driver) (w : World) (L : Ledger) (f : File)
    (h : errorsSent (d.Migrate w L f).events ≠ []) : (d.Migrate w L f).ledger = L := by
  cases d with
  | bash => rfl
  | crate =>
    simp only [Driver.Migrate, crate.Migrate, crate.body, Outcome.deferClose] at h ⊢
    cases hrc : w.ReadContent f with
    | error err => rfl
    | ok content =>
      rw [hrc] at h
      simp only at h ⊢
      cases hl : (crate.execLines w (crate.splitContent content) []).2 with
      | true => rfl
      | false =>
        rw [hl] at h
        cases hm : mutateLedger w L f with
        | error err => rfl
        | ok L1 =>
          rw [hm] at h
          simp [errorsSent_append, crate_execLines_not_returned w _ _ hl] at h
  | mysql =>
    simp only [Driver.Migrate, mysql.Migrate, mysql.body, Outcome.deferClose] at h ⊢
    cases hb : w.Begin with
    | some err => rfl
    | none =>
      rw [hb] at h
      simp only at h ⊢
      cases hm : mutateLedger w L f with
      | error err => rfl
      | ok L1 =>
        rw [hm] at h
        simp only at h ⊢
        cases hrc : w.ReadContent f with
        | error err => rfl
        | ok content =>
          rw [hrc] at h
          simp only at h ⊢
          cases hl : (mysql.execStmts w (Split content ';') []).2 with
          | true => rfl
          | false =>
            rw [hl] at h
            cases hc : w.Commit with
            | some err => rfl
            | none =>
              rw [hc] at h
              simp [errorsSent_append, mysql_execStmts_not_returned w _ _ hl] at h
  | phoenix =>
    simp only [Driver.Migrate, phoenix_Migrate_eq, mysql.Migrate, mysql.body,
      Outcome.deferClose] at h ⊢
    cases hb : w.Begin with
    | some err => rfl
    | none =>
      rw [hb] at h
      simp only at h ⊢
      cases hm : mutateLedger w L f with
      | error err => rfl
      | ok L1 =>
        rw [hm] at h
        simp only at h ⊢
        cases hrc : w.ReadContent f with
        | error err => rfl
        | ok content =>
          rw [hrc] at h
          simp only at h ⊢
          cases hl : (mysql.execStmts w (Split content ';') []).2 with
          | true => rfl
          | false =>
            rw [hl] at h
            cases hc : w.Commit with
            | some err => rfl
            | none =>
              rw [hc] at h
              simp [errorsSent_append, mysql_execStmts_not_returned w _ _ hl] at h
  | postgres =>
    simp only [Driver.Migrate, postgres.Migrate, postgres.body, Outcome.deferClose] at h ⊢
    cases hb : w.Begin with
    | some err => rfl
    | none =>
      rw [hb] at h
      simp only at h ⊢
      cases hm : mutateLedger w L f with
      | error err => rfl
      | ok L1 =>
        rw [hm] at h
        simp only at h ⊢
        cases hrc : w.ReadContent f with
        | error err => rfl
        | ok content =>
          rw [hrc] at h
          simp only at h ⊢
          cases hx : postgres.execContent w content with
          | some err => cases err <;> rfl
          | none =>
            rw [hx] at h
            cases hc : w.Commit with
            | some err => rfl
            | none =>
              rw [hc] at h
              simp [errorsSent_append] at h

/-! ## The ledger after a call -/

/-- C1, at the input where the code breaks it: in the mysql and phoenix drivers the
statement `a` of the Up file of version 1 fails with an error that is not of the native
type, the failure is passed over, the transaction is committed, and `Versions()` is
`[1]` after the call where it was empty before it. -/
theorem failed_statement_version_recorded :
    plainFailureWorld.TxExec [] "a".toList = some plainError ∧
    Event.txExec "a".toList ∈ (mysql.Migrate plainFailureWorld [] upFileAB).events ∧
    Event.txExec "a".toList ∈ (phoenix.Migrate plainFailureWorld [] upFileAB).events ∧
    Versions [] = [] ∧
    Versions (mysql.Migrate plainFailureWorld [] upFileAB).ledger = [1] ∧
    Versions (phoenix.Migrate plainFailureWorld [] upFileAB).ledger = [1] := by
  decide

/-- C2, at the input where the code breaks it: in the mysql and phoenix drivers the
first statement `a` of the file `a;b` fails with an error that is not of the native
type, and the statement `b` after it is executed all the same, followed by the
commit. -/
theorem statement_after_failure_executed :
    plainFailureWorld.TxExec [] "a".toList = some plainError ∧
    (mysql.Migrate plainFailureWorld [] upFileAB).events =
      [Event.send (Message.file upFileAB), Event.begin, Event.insertVersion 1,
        Event.readContent, Event.txExec "a".toList, Event.txExec "b".toList,
        Event.commit, Event.close] ∧
    (phoenix.Migrate plainFailureWorld [] upFileAB).events =
      [Event.send (Message.file upFileAB), Event.begin, Event.insertVersion 1,
        Event.readContent, Event.txExec "a".toList, Event.txExec "b".toList,
        Event.commit, Event.close] := by
  decide

/-- The ledger where the call returns: in the crate, mysql, phoenix and postgres
drivers, when `Migrate` returns having written no error to the pipe, then after an Up
file of version V the ledger holds V exactly once and `Version()` is the greatest
version of the ledger, and after a Down file of version V the ledger does not hold
V. -/
theorem ledger_after_migrate (d : Driver) (hd : d ≠ Driver.bash) (w : World) (L : Ledger)
    (f : File) (hret : (d.Migrate w L f).returned = true)
    (hok : errorsSent (d.Migrate w L f).events = []) :
    (f.Direction = Direction.Up →
      (d.Migrate w L f).ledger.count f.Version = 1 ∧
      Version (d.Migrate w L f).ledger ∈ (d.Migrate w L f).ledger ∧
      ∀ x ∈ (d.Migrate w L f).ledger, x ≤ Version (d.Migrate w L f).ledger) ∧
    (f.Direction = Direction.Down → f.Version ∉ (d.Migrate w L f).ledger) := by
  have hm := Driver_ledger_of_no_error d hd w L f hret hok
  constructor
  · intro hup
    simp only [mutateLedger, hup] at hm
    obtain ⟨hnot, heq⟩ := insertVersion_ok w L _ _ hm
    have hne : (d.Migrate w L f).ledger ≠ [] := by rw [heq]; simp
    refine ⟨?_, Version_greatest _ hne⟩
    rw [heq, List.count_append, List.count_eq_zero_of_not_mem hnot]
    simp
  · intro hdown
    simp only [mutateLedger, hdown] at hm
    rw [deleteVersion_ok w L _ _ hm]
    simp

/-- The ledger after the Up file of version 1 on the empty ledger, in the mysql driver. -/
theorem ledger_after_migrate_witness :
    (Driver.mysql.Migrate quietWorld [] upFileA).returned = true ∧
    errorsSent (Driver.mysql.Migrate quietWorld [] upFileA).events = [] ∧
    ((upFileA.Direction = Direction.Up →
      (Driver.mysql.Migrate quietWorld [] upFileA).ledger.count upFileA.Version = 1 ∧
      Version (Driver.mysql.Migrate quietWorld [] upFileA).ledger ∈
        (Driver.mysql.Migrate quietWorld [] upFileA).ledger ∧
      ∀ x ∈ (Driver.mysql.Migrate quietWorld [] upFileA).ledger,
        x ≤ Version (Driver.mysql.Migrate quietWorld [] upFileA).ledger) ∧
    (upFileA.Direction = Direction.Down →
      upFileA.Version ∉ (Driver.mysql.Migrate quietWorld [] upFileA).ledger)) :=
  ⟨by decide, by decide,
    ledger_after_migrate Driver.mysql (by decide) quietWorld [] upFileA (by decide) (by decide)⟩

theorem panic_not_mem_rollbackSteps (w : World) : Event.panic ∉ rollbackSteps w := by
  unfold rollbackSteps
  cases w.Rollback <;> simp

theorem ledgerStep_ne_panic (f : File) : Event.panic ≠ ledgerStep f := by
  unfold ledgerStep
  cases f.Direction <;> simp

theorem crate_execLines_no_panic (w : World) (lines done : List Text) :
    Event.panic ∉ (crate.execLines w lines done).1 := by
  induction lines generalizing done with
  | nil => simp [crate.execLines]
  | cons line lines ih =>
    unfold crate.execLines
    cases w.DbExec done line with
    | some err => simp
    | none => simpa using ih _

theorem mysql_execStmts_no_panic (w : World) (stmts done : List Text) :
    Event.panic ∉ (mysql.execStmts w stmts done).1 := by
  induction stmts generalizing done with
  | nil => simp [mysql.execStmts]
  | cons frag stmts ih =>
    unfold mysql.execStmts
    simp only
    split
    · split
      · simpa using panic_not_mem_rollbackSteps w
      · simpa using ih _
      · simpa using ih _
    · exact ih _

theorem mysql_returned (w : World) (L : Ledger) (f : File) :
    (mysql.Migrate w L f).returned = true := by
  unfold mysql.Migrate mysql.body
  cases w.Begin with
  | some err => simp [returned_append_close]
  | none =>
    simp only
    cases mutateLedger w L f with
    | error err =>
      simp [returned_append_close, ledgerStep_ne_panic, panic_not_mem_rollbackSteps]
    | ok L1 =>
      simp only
      cases w.ReadContent f with
      | error err => simp [returned_append_close, ledgerStep_ne_panic]
      | ok content =>
        simp only
        have hl := mysql_execStmts_no_panic w (Split content ';') []
        cases (mysql.execStmts w (Split content ';') []).2 with
        | true => simp [returned_append_close, ledgerStep_ne_panic, hl]
        | false =>
          cases w.Commit with
          | some err => simp [returned_append_close, ledgerStep_ne_panic, hl]
          | none => simp [returned_append_close, ledgerStep_ne_panic, hl]

/-- The bash, crate, mysql and phoenix drivers return from every call: only the
postgres driver has a path that ends in a panic. -/
theorem returned_of_ne_postgres (d : Driver) (hd : d ≠ Driver.postgres) (w : World)
    (L : Ledger) (f : File) : (d.Migrate w L f).returned = true := by
  cases d with
  | bash => simp [Driver.Migrate, bash.Migrate, returned_append_close]
  | crate =>
    simp only [Driver.Migrate, crate.Migrate, crate.body]
    cases w.ReadContent f with
    | error err => simp [returned_append_close]
    | ok content =>
      simp only
      have hl := crate_execLines_no_panic w (crate.splitContent content) []
      cases (crate.execLines w (crate.splitContent content) []).2 with
      | true => simp [returned_append_close, hl]
      | false =>
        cases mutateLedger w L f with
        | error err => simp [returned_append_close, ledgerStep_ne_panic, hl]
        | ok L1 => simp [returned_append_close, ledgerStep_ne_panic, hl]
  | mysql => exact mysql_returned w L f
  | phoenix =>
    simp only [Driver.Migrate, phoenix_Migrate_eq]
    exact mysql_returned w L f
  | postgres => exact absurd rfl hd

/-- C3, at the inputs where the code breaks it: in the postgres driver the statement
`a` fails with an error that is not a `*pq.Error`, the type assertion panics, and no
error is written to the pipe; after the Up file of version 1 on the empty ledger the
ledger does not hold 1, and after the Down file of version 1 on the ledger `[1]` the
ledger still holds 1. -/
theorem panic_ledger_not_updated :
    plainFailureWorld.TxExec [] "a".toList = some plainError ∧
    (postgres.Migrate plainFailureWorld [] upFileA).events =
      [Event.send (Message.file upFileA), Event.begin, Event.insertVersion 1,
        Event.readContent, Event.txExec "a".toList, Event.panic, Event.close] ∧
    errorsSent (postgres.Migrate plainFailureWorld [] upFileA).events = [] ∧
    (postgres.Migrate plainFailureWorld [] upFileA).ledger.count upFileA.Version = 0 ∧
    errorsSent (postgres.Migrate plainFailureWorld [1] downFileA).events = [] ∧
    downFileA.Version ∈ (postgres.Migrate plainFailureWorld [1] downFileA).ledger := by
  decide

/-! ## An Up file whose version is already in the ledger -/

theorem mutateLedger_conflict (w : World) (L : Ledger) (f : File)
    (hup : f.Direction = Direction.Up) (hv : f.Version ∈ L) :
    ∃ err, mutateLedger w L f = Except.error err := by
  simp only [mutateLedger, hup, insertVersion]
  cases w.LedgerExec with
  | some err => exact ⟨err, rfl⟩
  | none => exact ⟨w.Conflict, by simp [hv]⟩

theorem executed_ledgerStep (f : File) (a : List Event) :
    executed (ledgerStep f :: a) = executed a := by
  unfold ledgerStep
  cases f.Direction <;> rfl

theorem executed_rollbackSteps (w : World) : executed (rollbackSteps w) = [] := by
  unfold rollbackSteps
  cases w.Rollback <;> rfl

/-- The steps of the mysql driver when the statement on `schema_migrations` fails. -/
theorem mysql_events_of_ledger_error (w : World) (L : Ledger) (f : File) (err : Error)
    (hm : mutateLedger w L f = Except.error err) :
    (mysql.Migrate w L f).ledger = L ∧
    errorsSent (mysql.Migrate w L f).events ≠ [] ∧
    executed (mysql.Migrate w L f).events = [] ∧
    (w.Begin = none → (mysql.Migrate w L f).events =
      [Event.send (Message.file f), Event.begin, ledgerStep f,
        Event.send (Message.error err)] ++ rollbackSteps w ++ [Event.close]) := by
  unfold mysql.Migrate mysql.body Outcome.deferClose
  cases hb : w.Begin with
  | some e => simp [executed]
  | none =>
    simp only [hm]
    simp [executed, executed_ledgerStep, executed_append, executed_rollbackSteps]

/-- The steps of the postgres driver when the statement on `schema_migrations`
fails. -/
theorem postgres_events_of_ledger_error (w : World) (L : Ledger) (f : File) (err : Error)
    (hm : mutateLedger w L f = Except.error err) :
    (postgres.Migrate w L f).ledger = L ∧
    errorsSent (postgres.Migrate w L f).events ≠ [] ∧
    executed (postgres.Migrate w L f).events = [] ∧
    (w.Begin = none → (postgres.Migrate w L f).events =
      [Event.send (Message.file f), Event.begin, ledgerStep f,
        Event.send (Message.error err)] ++ rollbackSteps w ++ [Event.close]) := by
  unfold postgres.Migrate postgres.body Outcome.deferClose
  cases hb : w.Begin with
  | some e => simp [executed]
  | none =>
    simp only [hm]
    simp [executed, executed_ledgerStep, executed_append, executed_rollbackSteps]

/-- The crate driver writes an error and leaves the ledger as it was when the statement
on `schema_migrations` fails. -/
theorem crate_events_of_ledger_error (w : World) (L : Ledger) (f : File) (err : Error)
    (hm : mutateLedger w L f = Except.error err) :
    (crate.Migrate w L f).ledger = L ∧ errorsSent (crate.Migrate w L f).events ≠ [] := by
  unfold crate.Migrate crate.body Outcome.deferClose
  cases hrc : w.ReadContent f with
  | error e => simp
  | ok content =>
    simp only
    cases hl : (crate.execLines w (crate.splitContent content) []).2 with
    | true =>
      have := crate_execLines_returned w _ _ hl
      simp [errorsSent_append, this]
    | false => simp [hm, errorsSent_append]

/-- The loop of the crate driver, when it does not return: every line was executed, in
order, and every one with success. -/
theorem crate_execLines_done (w : World) (lines done : List Text)
    (h : (crate.execLines w lines done).2 = false) :
    (crate.execLines w lines done).1 = lines.map Event.dbExec ∧
    ∀ pre line post, lines = pre ++ line :: post → w.DbExec (done ++ pre) line = none := by
  induction lines generalizing done with
  | nil =>
    refine ⟨rfl, ?_⟩
    intro pre line post hsplit
    simp at hsplit
  | cons line0 lines ih =>
    unfold crate.execLines at h ⊢
    cases hx : w.DbExec done line0 with
    | some err => rw [hx] at h; simp at h
    | none =>
      rw [hx] at h
      simp only at h ⊢
      obtain ⟨h1, h2⟩ := ih _ h
      refine ⟨by rw [h1]; rfl, ?_⟩
      intro pre line post hsplit
      cases pre with
      | nil =>
        simp only [List.nil_append, List.cons.injEq] at hsplit
        rw [← hsplit.1]
        simpa using hx
      | cons p pre =>
        simp only [List.cons_append, List.cons.injEq] at hsplit
        have := h2 pre line post hsplit.2
        rw [← hsplit.1]
        simpa [List.append_assoc] using this

/-- The loop of the crate driver, when it returns: a line failed, and the loop holds no
insert into `schema_migrations`. -/
theorem crate_execLines_failed (w : World) (lines done : List Text)
    (h : (crate.execLines w lines done).2 = true) :
    (∀ v, Event.insertVersion v ∉ (crate.execLines w lines done).1) ∧
    ∃ pre line post, lines = pre ++ line :: post ∧ w.DbExec (done ++ pre) line ≠ none := by
  induction lines generalizing done with
  | nil => simp [crate.execLines] at h
  | cons line0 lines ih =>
    unfold crate.execLines at h ⊢
    cases hx : w.DbExec done line0 with
    | some err =>
      refine ⟨by simp, [], line0, lines, rfl, ?_⟩
      simp [hx]
    | none =>
      rw [hx] at h
      simp only at h ⊢
      obtain ⟨h1, pre, line, post, h2, h3⟩ := ih _ h
      refine ⟨fun v => by simpa using h1 v, line0 :: pre, line, post, by rw [h2]; rfl, ?_⟩
      simpa [List.append_assoc] using h3

/-- The order of the crate driver when the insert into `schema_migrations` fails: the
insert is reached exactly when the content was read and every statement of the file
succeeded, and then all the statements were executed, in order, before the insert. -/
theorem crate_order_of_conflict (w : World) (L : Ledger) (f : File) (err : Error)
    (hm : mutateLedger w L f = Except.error err)
    (hstep : ledgerStep f = Event.insertVersion f.Version) :
    (Event.insertVersion f.Version ∈ (crate.Migrate w L f).events ↔
      ∃ content, w.ReadContent f = Except.ok content ∧
        ∀ pre line post, crate.splitContent content = pre ++ line :: post →
          w.DbExec pre line = none) ∧
    (∀ content, w.ReadContent f = Except.ok content →
      Event.insertVersion f.Version ∈ (crate.Migrate w L f).events →
      (crate.Migrate w L f).events =
        [Event.send (Message.file f), Event.readContent] ++
          (crate.splitContent content).map Event.dbExec ++
          [Event.insertVersion f.Version, Event.send (Message.error err), Event.close]) := by
  unfold crate.Migrate crate.body Outcome.deferClose
  cases hrc : w.ReadContent f with
  | error e => simp
  | ok content =>
    simp only
    cases hl : (crate.execLines w (crate.splitContent content) []).2 with
    | true =>
      obtain ⟨h1, pre, line, post, h2, h3⟩ := crate_execLines_failed w _ _ hl
      have hnot : Event.insertVersion f.Version ∉
          [Event.send (Message.file f), Event.readContent] ++
            (crate.execLines w (crate.splitContent content) []).1 ++ [Event.close] := by
        simp [h1 f.Version]
      constructor
      · constructor
        · intro hmem
          exact absurd hmem hnot
        · rintro ⟨content1, hc1, hall⟩
          have hc : content1 = content := (Except.ok.inj hc1).symm
          rw [hc] at hall
          exact absurd (hall pre line post h2) (by simpa using h3)
      · intro content1 _ hmem
        exact absurd hmem hnot
    | false =>
      obtain ⟨h1, h2⟩ := crate_execLines_done w _ _ hl
      simp only [hm, hstep, h1]
      constructor
      · constructor
        · intro _
          exact ⟨content, rfl, fun pre line post hsplit => by
            simpa using h2 pre line post hsplit⟩
        · intro _
          simp
      · intro content1 hc1 _
        have hc : content1 = content := (Except.ok.inj hc1).symm
        rw [hc]
        simp

/-- C4, where it fails: in the crate driver the Up file of version 1, migrated while 1
is in the ledger, has its statement `a` executed again before the insert into
`schema_migrations` fails. -/
theorem crate_executes_before_conflict :
    upFileA.Direction = Direction.Up ∧ upFileA.Version ∈ [1] ∧
    (crate.Migrate quietWorld [1] upFileA).events =
      [Event.send (Message.file upFileA), Event.readContent, Event.dbExec "a".toList,
        Event.insertVersion 1, Event.send (Message.error quietWorld.Conflict),
        Event.close] ∧
    executed (crate.Migrate quietWorld [1] upFileA).events ≠ [] := by
  decide

/-- C4, amended: when an Up file of version V is migrated while the ledger holds V
(once, the column being the primary key), each of the crate, mysql, phoenix and
postgres drivers writes an error to the pipe and leaves the ledger as it was, with V
exactly once; the mysql, phoenix and postgres drivers execute no statement of the file
and, when the transaction begins, fail at the insert: they write its error and roll
back; the crate driver executes the statements first: it reaches the insert exactly
when the content was read and every statement of the file succeeded, and then all the
statements were executed, in order, before the insert, whose error it writes. -/
theorem up_again_fails (d : Driver) (hd : d ≠ Driver.bash) (w : World) (L : Ledger)
    (f : File) (hup : f.Direction = Direction.Up) (hv : f.Version ∈ L) (hpk : L.Nodup) :
    errorsSent (d.Migrate w L f).events ≠ [] ∧
    (d.Migrate w L f).ledger = L ∧
    (d.Migrate w L f).ledger.count f.Version = 1 ∧
    (d ≠ Driver.crate →
      executed (d.Migrate w L f).events = [] ∧
      (w.Begin = none → ∃ err, (d.Migrate w L f).events =
        [Event.send (Message.file f), Event.begin, Event.insertVersion f.Version,
          Event.send (Message.error err)] ++ rollbackSteps w ++ [Event.close])) ∧
    (d = Driver.crate →
      (Event.insertVersion f.Version ∈ (d.Migrate w L f).events ↔
        ∃ content, w.ReadContent f = Except.ok content ∧
          ∀ pre line post, crate.splitContent content = pre ++ line :: post →
            w.DbExec pre line = none) ∧
      (∀ content, w.ReadContent f = Except.ok content →
        Event.insertVersion f.Version ∈ (d.Migrate w L f).events →
        ∃ err, (d.Migrate w L f).events =
          [Event.send (Message.file f), Event.readContent] ++
            (crate.splitContent content).map Event.dbExec ++
            [Event.insertVersion f.Version, Event.send (Message.error err),
              Event.close])) := by
  obtain ⟨err, hm⟩ := mutateLedger_conflict w L f hup hv
  have hstep : ledgerStep f = Event.insertVersion f.Version := by simp [ledgerStep, hup]
  have hcount : L.count f.Version = 1 := List.count_eq_one_of_mem hpk hv
  cases d with
  | bash => exact absurd rfl hd
  | crate =>
    obtain ⟨h1, h2⟩ := crate_events_of_ledger_error w L f err hm
    obtain ⟨h5, h6⟩ := crate_order_of_conflict w L f err hm hstep
    simp only [Driver.Migrate]
    exact ⟨h2, h1, by rw [h1]; exact hcount, fun h => absurd rfl h,
      fun _ => ⟨h5, fun content hc hmem => ⟨err, h6 content hc hmem⟩⟩⟩
  | mysql =>
    obtain ⟨h1, h2, h3, h4⟩ := mysql_events_of_ledger_error w L f err hm
    simp only [Driver.Migrate]
    exact ⟨h2, h1, by rw [h1]; exact hcount, fun _ => ⟨h3, fun hb => ⟨err, hstep ▸ h4 hb⟩⟩,
      fun h => absurd h (by decide)⟩
  | phoenix =>
    obtain ⟨h1, h2, h3, h4⟩ := mysql_events_of_ledger_error w L f err hm
    simp only [Driver.Migrate, phoenix_Migrate_eq]
    exact ⟨h2, h1, by rw [h1]; exact hcount, fun _ => ⟨h3, fun hb => ⟨err, hstep ▸ h4 hb⟩⟩,
      fun h => absurd h (by decide)⟩
  | postgres =>
    obtain ⟨h1, h2, h3, h4⟩ := postgres_events_of_ledger_error w L f err hm
    simp only [Driver.Migrate]
    exact ⟨h2, h1, by rw [h1]; exact hcount, fun _ => ⟨h3, fun hb => ⟨err, hstep ▸ h4 hb⟩⟩,
      fun h => absurd h (by decide)⟩

/-- C4 amended, at the Up file of version 1 on the ledger `[1]`, in the postgres and in
the crate driver: postgres executes nothing, crate reaches the insert after the
statement `a`. -/
theorem up_again_fails_witness :
    (executed (Driver.postgres.Migrate quietWorld [1] upFileA).events = [] ∧
      errorsSent (Driver.postgres.Migrate quietWorld [1] upFileA).events ≠ [] ∧
      (Driver.postgres.Migrate quietWorld [1] upFileA).ledger = [1]) ∧
    (Event.insertVersion upFileA.Version ∈ (Driver.crate.Migrate quietWorld [1] upFileA).events ∧
      ∃ err, (Driver.crate.Migrate quietWorld [1] upFileA).events =
        [Event.send (Message.file upFileA), Event.readContent] ++
          (crate.splitContent upFileA.Content).map Event.dbExec ++
          [Event.insertVersion upFileA.Version, Event.send (Message.error err),
            Event.close]) :=
  ⟨⟨((up_again_fails Driver.postgres (by decide) quietWorld [1] upFileA rfl (by decide)
        (by decide)).2.2.2.1 (by decide)).1,
      (up_again_fails Driver.postgres (by decide) quietWorld [1] upFileA rfl (by decide)
        (by decide)).1,
      (up_again_fails Driver.postgres (by decide) quietWorld [1] upFileA rfl (by decide)
        (by decide)).2.1⟩,
    ⟨by decide,
      ((up_again_fails Driver.crate (by decide) quietWorld [1] upFileA rfl (by decide)
        (by decide)).2.2.2.2 rfl).2 upFileA.Content rfl (by decide)⟩⟩

/-! ## Up, then Down -/

/-- Up, then Down, where the calls return: in the crate, mysql, phoenix and postgres
drivers, when `Migrate` of the Up file of a version returns having written no error,
and `Migrate` of the Down file of the same version then returns having written no
error, `Versions()` after the Down is `Versions()` before the Up. -/
theorem up_down_roundtrip (d : Driver) (hd : d ≠ Driver.bash) (w1 w2 : World) (L : Ledger)
    (up down : File) (hup : up.Direction = Direction.Up)
    (hdown : down.Direction = Direction.Down) (hv : down.Version = up.Version)
    (hret1 : (d.Migrate w1 L up).returned = true)
    (hok1 : errorsSent (d.Migrate w1 L up).events = [])
    (hret2 : (d.Migrate w2 (d.Migrate w1 L up).ledger down).returned = true)
    (hok2 : errorsSent (d.Migrate w2 (d.Migrate w1 L up).ledger down).events = []) :
    Versions (d.Migrate w2 (d.Migrate w1 L up).ledger down).ledger = Versions L := by
  have h1 := Driver_ledger_of_no_error d hd w1 L up hret1 hok1
  have h2 := Driver_ledger_of_no_error d hd w2 _ down hret2 hok2
  simp only [mutateLedger, hup] at h1
  simp only [mutateLedger, hdown] at h2
  obtain ⟨hnot, heq⟩ := insertVersion_ok w1 L _ _ h1
  have hdel := deleteVersion_ok w2 _ _ _ h2
  rw [hdel, heq, hv]
  congr 1
  rw [List.filter_append]
  have hL : L.filter (fun x => decide (x ≠ up.Version)) = L := by
    rw [List.filter_eq_self]
    intro x hx
    have : x ≠ up.Version := fun h => hnot (h ▸ hx)
    simpa using this
  rw [hL]
  simp

/-- Up, then Down, with the files of version 1 on the ledger `[3]`, in the crate
driver. -/
theorem up_down_roundtrip_witness :
    Versions (Driver.crate.Migrate quietWorld
      (Driver.crate.Migrate quietWorld [3] upFileA).ledger downFileA).ledger = Versions [3] :=
  up_down_roundtrip Driver.crate (by decide) quietWorld quietWorld [3] upFileA downFileA
    rfl rfl rfl (by decide) (by decide) (by decide) (by decide)

/-- C5, at the input where the code breaks it: in the postgres driver the Up file of
version 1 is migrated on the empty ledger with success; in the Down file of version 1
the statement `a` fails with an error that is not a `*pq.Error`, the type assertion
panics and no error is written to the pipe; `Versions()` is `[1]` after the Down where
it was empty before the Up. -/
theorem panic_breaks_roundtrip :
    upFileA.Version = downFileA.Version ∧
    errorsSent (postgres.Migrate quietWorld [] upFileA).events = [] ∧
    errorsSent (postgres.Migrate plainFailureWorld
      (postgres.Migrate quietWorld [] upFileA).ledger downFileA).events = [] ∧
    Event.panic ∈ (postgres.Migrate plainFailureWorld
      (postgres.Migrate quietWorld [] upFileA).ledger downFileA).events ∧
    Versions [] = [] ∧
    Versions (postgres.Migrate plainFailureWorld
      (postgres.Migrate quietWorld [] upFileA).ledger downFileA).ledger = [1] := by
  decide

/-! ## The pipe -/

@[simp] theorem isError_error (err : Error) : (Message.error err).isError = true := rfl

@[simp] theorem isError_diagnostic (e : NativeError) (src : Text) :
    (Message.diagnostic e src).isError = true := rfl

@[simp] theorem afterFile_send (m : Message) : (Event.send m).afterFile = m.isError := rfl

@[simp] theorem afterFile_close : Event.close.afterFile = false := rfl

@[simp] theorem afterFile_begin : Event.begin.afterFile = true := rfl

@[simp] theorem afterFile_insertVersion (v : Nat) :
    (Event.insertVersion v).afterFile = true := rfl

@[simp] theorem afterFile_deleteVersion (v : Nat) :
    (Event.deleteVersion v).afterFile = true := rfl

@[simp] theorem afterFile_readContent : Event.readContent.afterFile = true := rfl

@[simp] theorem afterFile_txExec (stmt : Text) : (Event.txExec stmt).afterFile = true := rfl

@[simp] theorem afterFile_dbExec (stmt : Text) : (Event.dbExec stmt).afterFile = true := rfl

@[simp] theorem afterFile_rollback : Event.rollback.afterFile = true := rfl

@[simp] theorem afterFile_commit : Event.commit.afterFile = true := rfl

@[simp] theorem afterFile_panic : Event.panic.afterFile = true := rfl

@[simp] theorem afterFile_ledgerStep (f : File) : (ledgerStep f).afterFile = true := by
  unfold ledgerStep
  cases f.Direction <;> rfl

@[simp] theorem afterFile_rollbackSteps (w : World) :
    (rollbackSteps w).all Event.afterFile = true := by
  unfold rollbackSteps
  cases w.Rollback <;> rfl

@[simp] theorem postgres_afterFile_execStep (content : Text) :
    (postgres.execStep content).afterFile = true := by
  unfold postgres.execStep
  split <;> rfl

@[simp] theorem crate_afterFile_execLines (w : World) (lines done : List Text) :
    (crate.execLines w lines done).1.all Event.afterFile = true := by
  induction lines generalizing done with
  | nil => rfl
  | cons line lines ih =>
    unfold crate.execLines
    cases w.DbExec done line with
    | some err => rfl
    | none => simp only [List.all_cons, afterFile_dbExec, ih, Bool.and_self]

@[simp] theorem mysql_afterFile_execStmts (w : World) (stmts done : List Text) :
    (mysql.execStmts w stmts done).1.all Event.afterFile = true := by
  induction stmts generalizing done with
  | nil => rfl
  | cons frag stmts ih =>
    unfold mysql.execStmts
    simp only
    split
    · split
      · simp only [List.all_cons, afterFile_txExec, afterFile_send, isError_diagnostic,
          afterFile_rollbackSteps, Bool.and_self]
      · simp only [List.all_cons, afterFile_txExec, ih, Bool.and_self]
      · simp only [List.all_cons, afterFile_txExec, ih, Bool.and_self]
    · exact ih _

/-- The steps of the crate driver: the write of the file, then steps that neither close
the pipe nor write anything but errors. -/
theorem crate_body_steps (w : World) (L : Ledger) (f : File) :
    ∃ rest, (crate.body w L f).events = Event.send (Message.file f) :: rest ∧
      rest.all Event.afterFile = true := by
  unfold crate.body
  cases w.ReadContent f with
  | error err => exact ⟨_, rfl, rfl⟩
  | ok content =>
    simp only
    cases (crate.execLines w (crate.splitContent content) []).2 with
    | true => exact ⟨_, rfl, by simp [List.all_append]⟩
    | false =>
      cases mutateLedger w L f with
      | error err => exact ⟨_, rfl, by simp [List.all_append]⟩
      | ok L1 => exact ⟨_, rfl, by simp [List.all_append]⟩

/-- The steps of the mysql driver: the write of the file, then steps that neither close
the pipe nor write anything but errors. -/
theorem mysql_body_steps (w : World) (L : Ledger) (f : File) :
    ∃ rest, (mysql.body w L f).events = Event.send (Message.file f) :: rest ∧
      rest.all Event.afterFile = true := by
  unfold mysql.body
  cases w.Begin with
  | some err => exact ⟨_, rfl, rfl⟩
  | none =>
    simp only
    cases mutateLedger w L f with
    | error err => exact ⟨_, rfl, by simp [List.all_append]⟩
    | ok L1 =>
      simp only
      cases w.ReadContent f with
      | error err => exact ⟨_, rfl, by simp [List.all_append]⟩
      | ok content =>
        simp only
        cases (mysql.execStmts w (Split content ';') []).2 with
        | true => exact ⟨_, rfl, by simp [List.all_append]⟩
        | false =>
          cases w.Commit with
          | some err => exact ⟨_, rfl, by simp [List.all_append]⟩
          | none => exact ⟨_, rfl, by simp [List.all_append]⟩

/-- The steps of the postgres driver: the write of the file, then steps that neither
close the pipe nor write anything but errors. -/
theorem postgres_body_steps (w : World) (L : Ledger) (f : File) :
    ∃ rest, (postgres.body w L f).events = Event.send (Message.file f) :: rest ∧
      rest.all Event.afterFile = true := by
  unfold postgres.body
  cases w.Begin with
  | some err => exact ⟨_, rfl, rfl⟩
  | none =>
    simp only
    cases mutateLedger w L f with
    | error err => exact ⟨_, rfl, by simp [List.all_append]⟩
    | ok L1 =>
      simp only
      cases w.ReadContent f with
      | error err => exact ⟨_, rfl, by simp [List.all_append]⟩
      | ok content =>
        simp only
        cases postgres.execContent w content with
        | some err =>
          cases err with
          | native pqErr => exact ⟨_, rfl, by simp [List.all_append]⟩
          | other text => exact ⟨_, rfl, by simp [List.all_append]⟩
        | none =>
          cases w.Commit with
          | some err => exact ⟨_, rfl, by simp [List.all_append]⟩
          | none => exact ⟨_, rfl, by simp [List.all_append]⟩

theorem pipe_of_body (r : Outcome) (f : File) (rest : List Event)
    (h : r.events = Event.send (Message.file f) :: rest)
    (hall : rest.all Event.afterFile = true) :
    r.deferClose.events = Event.send (Message.file f) :: (rest ++ [Event.close]) ∧
    Event.close ∉ rest ∧ ∀ m, Event.send m ∈ rest → m.isError = true := by
  rw [List.all_eq_true] at hall
  refine ⟨by simp [Outcome.deferClose, h], fun hc => ?_, fun m hm => ?_⟩
  · simpa [Event.afterFile] using hall _ hc
  · simpa [Event.afterFile] using hall _ hm

/-- C6: in each of the bash, crate, mysql, phoenix and postgres drivers, for every file
and every outcome of the operations, the first step of `Migrate` is the write of the
file to the pipe, every other value written to the pipe is an error, and the pipe is
closed once, as the last step. -/
theorem pipe_protocol (d : Driver) (w : World) (L : Ledger) (f : File) :
    ∃ rest, (d.Migrate w L f).events = Event.send (Message.file f) :: (rest ++ [Event.close]) ∧
      Event.close ∉ rest ∧ ∀ m, Event.send m ∈ rest → m.isError = true := by
  cases d with
  | bash => exact ⟨[], rfl, by simp, by simp⟩
  | crate =>
    obtain ⟨rest, h, hall⟩ := crate_body_steps w L f
    exact ⟨rest, pipe_of_body _ f rest h hall⟩
  | mysql =>
    obtain ⟨rest, h, hall⟩ := mysql_body_steps w L f
    exact ⟨rest, pipe_of_body _ f rest h hall⟩
  | phoenix =>
    obtain ⟨rest, h, hall⟩ := mysql_body_steps w L f
    simp only [Driver.Migrate, phoenix_Migrate_eq]
    exact ⟨rest, pipe_of_body _ f rest h hall⟩
  | postgres =>
    obtain ⟨rest, h, hall⟩ := postgres_body_steps w L f
    exact ⟨rest, pipe_of_body _ f rest h hall⟩

/-! ## A failing statement -/

/-- C7, at the inputs where the code breaks it: the statement `a` fails with an error
that is not of the native type; the mysql and phoenix drivers write no error to the pipe
and do not roll back but commit, and the postgres driver panics at the type assertion,
having written no error and without rolling back. -/
theorem failure_not_reported :
    plainFailureWorld.TxExec [] "a".toList = some plainError ∧
    (mysql.Migrate plainFailureWorld [] upFileA).events =
      [Event.send (Message.file upFileA), Event.begin, Event.insertVersion 1,
        Event.readContent, Event.txExec "a".toList, Event.commit, Event.close] ∧
    (phoenix.Migrate plainFailureWorld [] upFileA).events =
      [Event.send (Message.file upFileA), Event.begin, Event.insertVersion 1,
        Event.readContent, Event.txExec "a".toList, Event.commit, Event.close] ∧
    (postgres.Migrate plainFailureWorld [] upFileA).events =
      [Event.send (Message.file upFileA), Event.begin, Event.insertVersion 1,
        Event.readContent, Event.txExec "a".toList, Event.panic, Event.close] := by
  decide

/-! ## The statement splitter -/

theorem TrimSpace_eq (s : Text) :
    TrimSpace s = (s.dropWhile IsSpace).rdropWhile IsSpace := rfl

theorem TrimSpace_sublist (s : Text) : (TrimSpace s).Sublist s :=
  ((List.rdropWhile_prefix IsSpace _).sublist).trans (List.dropWhile_sublist IsSpace)

theorem dropWhile_eq_self_of_head (p : Char → Bool) (l : Text)
    (h : ∀ a, l.head? = some a → p a = false) : l.dropWhile p = l := by
  cases l with
  | nil => rfl
  | cons a l => simp [List.dropWhile, h a rfl]

/-- Trimming a trimmed text changes nothing. -/
theorem TrimSpace_idem (s : Text) : TrimSpace (TrimSpace s) = TrimSpace s := by
  have h1 : ((s.dropWhile IsSpace).rdropWhile IsSpace).dropWhile IsSpace =
      (s.dropWhile IsSpace).rdropWhile IsSpace := by
    apply dropWhile_eq_self_of_head
    intro a ha
    obtain ⟨r, hr⟩ := List.rdropWhile_prefix IsSpace (s.dropWhile IsSpace)
    have hhead : (s.dropWhile IsSpace).head? = some a := by
      rw [← hr, List.head?_append, ha]
      rfl
    have := List.head?_dropWhile_not IsSpace s
    rw [hhead] at this
    exact this
  rw [TrimSpace_eq (TrimSpace s), TrimSpace_eq s, h1, List.rdropWhile_idempotent]

/-- A text of white space only is empty once trimmed. -/
theorem TrimSpace_of_all_space (s : Text) (h : ∀ c ∈ s, IsSpace c = true) :
    TrimSpace s = [] := by
  have : s.dropWhile IsSpace = [] := List.dropWhile_eq_nil_iff.mpr h
  rw [TrimSpace_eq, this]
  rfl

theorem Split_ne_nil (s : Text) (sep : Char) : Split s sep ≠ [] := by
  cases s with
  | nil => simp [Split]
  | cons c cs =>
    unfold Split
    split
    · simp
    · split <;> simp

theorem Split_length (s : Text) (sep : Char) :
    (Split s sep).length = s.count sep + 1 := by
  induction s with
  | nil => rfl
  | cons c cs ih =>
    unfold Split
    by_cases hc : c = sep
    · subst hc
      simp [ih]
    · have hc2 : (c == sep) = false := by simpa using hc
      rw [if_neg hc, List.count_cons, hc2]
      cases hs : Split cs sep with
      | nil => exact absurd hs (Split_ne_nil cs sep)
      | cons frag frags =>
        rw [hs] at ih
        simpa using ih

theorem Split_not_mem (s : Text) (sep : Char) : ∀ frag ∈ Split s sep, sep ∉ frag := by
  induction s with
  | nil => simp [Split]
  | cons c cs ih =>
    unfold Split
    by_cases hc : c = sep
    · rw [if_pos hc]
      intro frag hfrag
      rcases List.mem_cons.mp hfrag with rfl | h
      · simp
      · exact ih frag h
    · rw [if_neg hc]
      cases hs : Split cs sep with
      | nil => exact absurd hs (Split_ne_nil cs sep)
      | cons frag0 frags =>
        rw [hs] at ih
        intro frag hfrag
        rcases List.mem_cons.mp hfrag with rfl | h
        · intro hmem
          rcases List.mem_cons.mp hmem with h1 | h1
          · exact hc h1.symm
          · exact ih frag0 (List.mem_cons_self _ _) h1
        · exact ih frag (List.mem_cons_of_mem _ h)

theorem Split_of_not_mem (s : Text) (sep : Char) (h : sep ∉ s) : Split s sep = [s] := by
  induction s with
  | nil => rfl
  | cons c cs ih =>
    have hc : c ≠ sep := fun e => h (e ▸ List.mem_cons_self _ _)
    have hcs : sep ∉ cs := fun e => h (List.mem_cons_of_mem _ e)
    unfold Split
    rw [if_neg hc, ih hcs]

theorem Split_append (a b : Text) (sep : Char) (h : sep ∉ a) :
    Split (a ++ sep :: b) sep = a :: Split b sep := by
  induction a with
  | nil => simp [Split]
  | cons c cs ih =>
    have hc : c ≠ sep := fun e => h (e ▸ List.mem_cons_self _ _)
    have hcs : sep ∉ cs := fun e => h (List.mem_cons_of_mem _ e)
    rw [List.cons_append]
    simp only [Split, if_neg hc, ih hcs]

theorem Remove_of_not_mem (s : Text) (old : Char) (h : old ∉ s) : Remove s old = s := by
  unfold Remove
  rw [List.filter_eq_self]
  intro c hc
  have : c ≠ old := fun e => h (e ▸ hc)
  simpa using this

theorem Remove_not_mem (s : Text) (old : Char) : old ∉ Remove s old := by
  simp [Remove]

theorem crate_splitContentLoop_length (lines : List Text) :
    (crate.splitContentLoop lines).length ≤ lines.length := by
  induction lines with
  | nil => simp [crate.splitContentLoop]
  | cons frag lines ih =>
    unfold crate.splitContentLoop
    simp only
    split
    · simpa using ih
    · exact Nat.le_succ_of_le ih

theorem crate_splitContentLoop_mem (lines : List Text) (s : Text)
    (h : s ∈ crate.splitContentLoop lines) :
    s ≠ [] ∧ ∃ frag ∈ lines, s = TrimSpace (Remove frag ';') := by
  induction lines with
  | nil => simp [crate.splitContentLoop] at h
  | cons frag lines ih =>
    unfold crate.splitContentLoop at h
    simp only at h
    split at h
    · rcases List.mem_cons.mp h with rfl | h1
      · exact ⟨by assumption, frag, List.mem_cons_self _ _, rfl⟩
      · obtain ⟨h2, frag1, h3, h4⟩ := ih h1
        exact ⟨h2, frag1, List.mem_cons_of_mem _ h3, h4⟩
    · obtain ⟨h2, frag1, h3, h4⟩ := ih h
      exact ⟨h2, frag1, List.mem_cons_of_mem _ h3, h4⟩

/-- C8: for every text, no element of `splitContent` is empty or made of white space
only, every element is its own trimmed form, and the empty text gives the empty
sequence. -/
theorem splitContent_trimmed (T : Text) :
    (∀ s ∈ crate.splitContent T,
      s ≠ [] ∧ ¬ (∀ c ∈ s, IsSpace c = true) ∧ TrimSpace s = s) ∧
    crate.splitContent [] = [] := by
  refine ⟨fun s hs => ?_, rfl⟩
  obtain ⟨hne, frag, _, heq⟩ := crate_splitContentLoop_mem _ s hs
  have htrim : TrimSpace s = s := by rw [heq, TrimSpace_idem]
  refine ⟨hne, fun hall => ?_, htrim⟩
  exact hne (htrim ▸ TrimSpace_of_all_space s hall)

/-- C9, where it fails: with `T1 = a;b` and `T2 = c`, both not empty once trimmed,
`splitContent (T1 + ";" + T2)` has the three elements `a`, `b`, `c` and is not
`[trim T1, trim T2]`. -/
theorem splitContent_concat_three :
    TrimSpace "a;b".toList ≠ [] ∧ TrimSpace "c".toList ≠ [] ∧
    crate.splitContent ("a;b".toList ++ ";".toList ++ "c".toList) =
      ["a".toList, "b".toList, "c".toList] ∧
    crate.splitContent ("a;b".toList ++ ";".toList ++ "c".toList) ≠
      [TrimSpace "a;b".toList, TrimSpace "c".toList] := by
  decide

/-- C9, amended: for texts T1 and T2 that hold no `;` and are not empty once trimmed,
`splitContent (T1 + ";" + T2)` is `[trim T1, trim T2]`. -/
theorem splitContent_concat (T1 T2 : Text) (h1 : ';' ∉ T1) (h2 : ';' ∉ T2)
    (hne1 : TrimSpace T1 ≠ []) (hne2 : TrimSpace T2 ≠ []) :
    crate.splitContent (T1 ++ ";".toList ++ T2) = [TrimSpace T1, TrimSpace T2] := by
  have happ : T1 ++ ";".toList ++ T2 = T1 ++ ';' :: T2 := by simp
  unfold crate.splitContent
  rw [happ, Split_append T1 T2 ';' h1, Split_of_not_mem T2 ';' h2]
  simp [crate.splitContentLoop, Remove_of_not_mem _ _ h1, Remove_of_not_mem _ _ h2, hne1, hne2]

/-- C9 amended, at `T1 = " a"` and `T2 = "b "`. -/
theorem splitContent_concat_witness :
    crate.splitContent (" a".toList ++ ";".toList ++ "b ".toList) =
      [TrimSpace " a".toList, TrimSpace "b ".toList] :=
  splitContent_concat " a".toList "b ".toList (by decide) (by decide) (by decide) (by decide)

/-- The fragments of `Split`, joined again at the separator, are the text. -/
theorem joinWith_Split (s : Text) (sep : Char) : joinWith sep (Split s sep) = s := by
  induction s with
  | nil => rfl
  | cons c cs ih =>
    unfold Split
    by_cases hc : c = sep
    · rw [if_pos hc]
      cases hs : Split cs sep with
      | nil => exact absurd hs (Split_ne_nil cs sep)
      | cons frag frags =>
        rw [hs] at ih
        simp [joinWith, ih, hc]
    · rw [if_neg hc]
      cases hs : Split cs sep with
      | nil => exact absurd hs (Split_ne_nil cs sep)
      | cons frag frags =>
        rw [hs] at ih
        cases frags with
        | nil =>
          simp only [joinWith] at ih ⊢
          rw [ih]
        | cons next frags =>
          simp only [joinWith] at ih ⊢
          rw [List.cons_append, ih]

/-- A text cut at every separator into fragments without the separator is split by
`Split` into these fragments. -/
theorem Split_joinWith (frags : List Text) (sep : Char) (hne : frags ≠ [])
    (hfrags : ∀ frag ∈ frags, sep ∉ frag) : Split (joinWith sep frags) sep = frags := by
  induction frags with
  | nil => exact absurd rfl hne
  | cons frag frags ih =>
    cases frags with
    | nil =>
      simp only [joinWith]
      exact Split_of_not_mem frag sep (hfrags frag (List.mem_cons_self _ _))
    | cons next frags =>
      simp only [joinWith]
      rw [Split_append frag _ sep (hfrags frag (List.mem_cons_self _ _)),
        ih (by simp) (fun x hx => hfrags x (List.mem_cons_of_mem _ hx))]

/-- The loop of `splitContent` over fragments without `;` trims every fragment and
keeps the ones that are not empty, in order. -/
theorem crate_splitContentLoop_eq (lines : List Text) (h : ∀ frag ∈ lines, ';' ∉ frag) :
    crate.splitContentLoop lines = (lines.map TrimSpace).filter (fun s => s ≠ []) := by
  induction lines with
  | nil => rfl
  | cons frag lines ih =>
    have hfrag : Remove frag ';' = frag :=
      Remove_of_not_mem frag ';' (h frag (List.mem_cons_self _ _))
    have ih2 := ih (fun x hx => h x (List.mem_cons_of_mem _ hx))
    unfold crate.splitContentLoop
    simp only [hfrag, List.map_cons, List.filter_cons]
    by_cases hne : TrimSpace frag = []
    · simp [hne, ih2]
    · simp [hne, ih2]

/-- C10: for every text, `splitContent` splits on every `;` and discards it: however
the text is cut at every `;` into fragments without `;`, the result is these fragments,
trimmed, without the empty ones, in order; the text has such a cut, into one fragment
more than it has `;`; no element of the result holds a `;`, and the number of elements
is at most one more than the number of `;` of the text. -/
theorem splitContent_delimiter (T : Text) :
    (∀ s ∈ crate.splitContent T, ';' ∉ s) ∧
    (crate.splitContent T).length ≤ T.count ';' + 1 ∧
    (∀ frags : List Text, joinWith ';' frags = T → (∀ frag ∈ frags, ';' ∉ frag) →
      crate.splitContent T = (frags.map TrimSpace).filter (fun s => s ≠ [])) ∧
    (∃ frags : List Text, joinWith ';' frags = T ∧ (∀ frag ∈ frags, ';' ∉ frag) ∧
      frags.length = T.count ';' + 1) := by
  refine ⟨?_, ?_, ?_, ?_⟩
  · intro s hs hmem
    obtain ⟨_, frag, _, heq⟩ := crate_splitContentLoop_mem _ s hs
    rw [heq] at hmem
    exact Remove_not_mem frag ';' ((TrimSpace_sublist _).subset hmem)
  · have := crate_splitContentLoop_length (Split T ';')
    rw [Split_length] at this
    exact this
  · intro frags hjoin hfrags
    by_cases hne : frags = []
    · subst hne
      rw [← hjoin]
      rfl
    · unfold crate.splitContent
      rw [← hjoin, Split_joinWith frags ';' hne hfrags]
      exact crate_splitContentLoop_eq frags hfrags
  · exact ⟨Split T ';', joinWith_Split T ';', Split_not_mem T ';', Split_length T ';'⟩

/-- C10 at the text `a; b;;c`, cut into the fragments `a`, ` b`, the empty text and
`c`. -/
theorem splitContent_delimiter_witness :
    joinWith ';' ["a".toList, " b".toList, [], "c".toList] = "a; b;;c".toList ∧
    crate.splitContent "a; b;;c".toList = ["a".toList, "b".toList, "c".toList] :=
  ⟨by decide,
    ((splitContent_delimiter "a; b;;c".toList).2.2.1
      ["a".toList, " b".toList, [], "c".toList] (by decide) (by decide)).trans (by decide)⟩

/-! ## postgres: the directive of the first line -/

theorem txDisabled_iff_mem (opts : List Text) :
    postgres.txDisabled opts = true ↔ postgres.txDisabledOption ∈ opts := by
  induction opts with
  | nil => simp [postgres.txDisabled]
  | cons v opts ih =>
    unfold postgres.txDisabled
    by_cases hv : v = postgres.txDisabledOption
    · simp [hv]
    · have hv2 : ¬ postgres.txDisabledOption = v := fun h => hv h.symm
      simp [hv, hv2, ih]

/-- The first fragment of `Split` is the text before the first separator. -/
theorem Split_head (s : Text) (sep : Char) :
    (Split s sep).headD [] = s.takeWhile (fun c => c ≠ sep) := by
  induction s with
  | nil => rfl
  | cons c cs ih =>
    unfold Split
    by_cases hc : c = sep
    · simp [hc]
    · rw [if_neg hc]
      cases hs : Split cs sep with
      | nil => exact absurd hs (Split_ne_nil cs sep)
      | cons frag frags =>
        rw [hs] at ih
        simp only [List.headD_cons] at ih ⊢
        simp [List.takeWhile_cons, hc, ih]

/-- The shape of `Split`: the first fragment is followed in the text by nothing or by a
separator, and every other fragment stands after a separator and is followed by
nothing or by a separator. -/
theorem Split_shape (s : Text) (sep : Char) :
    ∃ h t, Split s sep = h :: t ∧
      (∃ b, s = h ++ b ∧ (b = [] ∨ ∃ b', b = sep :: b')) ∧
      ∀ tok ∈ t, ∃ a' b, s = (a' ++ [sep]) ++ tok ++ b ∧ (b = [] ∨ ∃ b', b = sep :: b') := by
  induction s with
  | nil => exact ⟨[], [], rfl, ⟨[], rfl, Or.inl rfl⟩, by simp⟩
  | cons c cs ih =>
    obtain ⟨h, t, hs, ⟨b, hb, hb2⟩, htail⟩ := ih
    by_cases hc : c = sep
    · refine ⟨[], h :: t, by simp [Split, hc, hs], ⟨c :: cs, rfl, Or.inr ⟨cs, by rw [hc]⟩⟩, ?_⟩
      intro tok htok
      rcases List.mem_cons.mp htok with rfl | htok
      · exact ⟨[], b, by simp [hc, hb], hb2⟩
      · obtain ⟨a', b1, h1, h2⟩ := htail tok htok
        exact ⟨c :: a', b1, by simp [h1], h2⟩
    · refine ⟨c :: h, t, by simp [Split, hc, hs], ⟨b, by simp [hb], hb2⟩, ?_⟩
      intro tok htok
      obtain ⟨a', b1, h1, h2⟩ := htail tok htok
      exact ⟨c :: a', b1, by simp [h1], h2⟩

/-- The fragments of the text after a separator are fragments of the whole text. -/
theorem Split_suffix (x y : Text) (sep : Char) :
    ∃ h t, Split (x ++ sep :: y) sep = h :: (t ++ Split y sep) := by
  induction x with
  | nil => exact ⟨[], [], by simp [Split]⟩
  | cons c cs ih =>
    obtain ⟨h, t, hs⟩ := ih
    by_cases hc : c = sep
    · exact ⟨[], h :: t, by simp [Split, hc, hs]⟩
    · exact ⟨c :: h, t, by simp [Split, hc, hs]⟩

/-- The fragments of `Split` that hold no separator are the tokens of the text. -/
theorem mem_Split_iff (s tok : Text) (sep : Char) (hsep : sep ∉ tok) :
    tok ∈ Split s sep ↔
      ∃ a b, s = a ++ tok ++ b ∧ (a = [] ∨ ∃ a', a = a' ++ [sep]) ∧
        (b = [] ∨ ∃ b', b = sep :: b') := by
  constructor
  · intro hmem
    obtain ⟨h, t, hs, ⟨b, hb, hb2⟩, htail⟩ := Split_shape s sep
    rw [hs] at hmem
    rcases List.mem_cons.mp hmem with rfl | hmem
    · exact ⟨[], b, by simp [hb], Or.inl rfl, hb2⟩
    · obtain ⟨a', b1, h1, h2⟩ := htail tok hmem
      exact ⟨a' ++ [sep], b1, h1, Or.inr ⟨a', rfl⟩, h2⟩
  · rintro ⟨a, b, hs, ha, hb⟩
    have hfirst : tok ∈ Split (tok ++ b) sep := by
      rcases hb with rfl | ⟨b', rfl⟩
      · simp [Split_of_not_mem tok sep hsep]
      · simp [Split_append tok b' sep hsep]
    rcases ha with rfl | ⟨a', rfl⟩
    · simpa [hs] using hfirst
    · obtain ⟨h, t, hsplit⟩ := Split_suffix a' (tok ++ b) sep
      have hs2 : s = a' ++ sep :: (tok ++ b) := by simp [hs]
      rw [hs2, hsplit]
      exact List.mem_cons_of_mem _ (List.mem_append_right _ hfirst)

theorem fileOptions_eq (content : Text) :
    postgres.fileOptions content =
      if "-- ".toList.isPrefixOf (firstLineOf content) then
        Split ((firstLineOf content).drop 3) ' '
      else [] := by
  unfold postgres.fileOptions
  simp only [Split_head, HasPrefix, TrimPrefix, firstLineOf]
  split <;> simp_all

theorem firstLineOf_append (content rest : Text) :
    firstLineOf (firstLineOf content ++ '\n' :: rest) = firstLineOf content := by
  unfold firstLineOf
  induction content with
  | nil => simp [List.takeWhile]
  | cons c cs ih =>
    by_cases hc : c = '\n'
    · simp [List.takeWhile, hc]
    · simpa [List.takeWhile_cons, hc] using ih

theorem txDisabled_iff_spec (content : Text) :
    postgres.txDisabled (postgres.fileOptions content) = true ↔
      specDisablesTransaction content := by
  have hsp : ' ' ∉ postgres.txDisabledOption := by decide
  rw [txDisabled_iff_mem, fileOptions_eq]
  unfold specDisablesTransaction IsToken
  by_cases hp : "-- ".toList.isPrefixOf (firstLineOf content) = true
  · rw [if_pos hp, mem_Split_iff _ _ ' ' hsp]
    obtain ⟨opts, hopts⟩ := List.isPrefixOf_iff_prefix.mp hp
    have hdrop : (firstLineOf content).drop 3 = opts := by
      rw [← hopts]
      rfl
    rw [hdrop]
    constructor
    · intro h
      exact ⟨opts, hopts.symm, h⟩
    · rintro ⟨opts1, h1, h2⟩
      have : opts1 = opts := by
        rw [← hopts] at h1
        exact (List.append_cancel_left h1).symm
      rw [← this]
      exact h2
  · rw [if_neg hp]
    constructor
    · intro h
      simp at h
    · rintro ⟨opts1, h1, _⟩
      exact absurd (List.isPrefixOf_iff_prefix.mpr ⟨opts1, h1.symm⟩) hp

theorem executed_execStep (content : Text) (a : List Event) :
    executed (postgres.execStep content :: a) = content :: executed a := by
  unfold postgres.execStep
  split <;> rfl

/-- The steps of postgres `Migrate` once the content is read: the content is the one
statement executed, by the step that the directive selects. -/
theorem postgres_content_step (w : World) (L L1 : Ledger) (f : File) (content : Text)
    (hb : w.Begin = none) (hm : mutateLedger w L f = Except.ok L1)
    (hrc : w.ReadContent f = Except.ok content) :
    executed (postgres.Migrate w L f).events = [content] ∧
    postgres.execStep content ∈ (postgres.Migrate w L f).events := by
  unfold postgres.Migrate postgres.body Outcome.deferClose
  simp only [hb, hm, hrc]
  cases postgres.execContent w content with
  | some err =>
    cases err with
    | native pqErr =>
      simp [executed, executed_ledgerStep, executed_execStep, executed_append,
        executed_rollbackSteps]
    | other text => simp [executed, executed_ledgerStep, executed_execStep]
  | none =>
    cases w.Commit with
    | some err => simp [executed, executed_ledgerStep, executed_execStep]
    | none => simp [executed, executed_ledgerStep, executed_execStep]

/-- C11: for every content, `txDisabled (fileOptions content)` is true exactly when the
text before the first newline starts with `-- ` and, once that prefix is removed, one
of its tokens separated by single spaces is `disable_ddl_transaction`; when the first
line does not start with `-- `, `fileOptions` returns the empty list; what follows the
first line has no effect on the options; and postgres `Migrate`, once it has read the
content, executes it as its one statement, on the bare connection when the option is
there and inside the transaction otherwise. -/
theorem directive_first_line (content : Text) :
    (postgres.txDisabled (postgres.fileOptions content) = true ↔
      specDisablesTransaction content) ∧
    ((¬ ∃ opts, firstLineOf content = "-- ".toList ++ opts) →
      postgres.fileOptions content = []) ∧
    (∀ rest, postgres.fileOptions (firstLineOf content ++ '\n' :: rest) =
      postgres.fileOptions content) ∧
    (∀ (w : World) (L L1 : Ledger) (f : File), w.Begin = none →
      mutateLedger w L f = Except.ok L1 → w.ReadContent f = Except.ok content →
      executed (postgres.Migrate w L f).events = [content] ∧
      (postgres.txDisabled (postgres.fileOptions content) = true →
        postgres.execContent w content = w.DbExec [] content ∧
        Event.dbExec content ∈ (postgres.Migrate w L f).events) ∧
      (postgres.txDisabled (postgres.fileOptions content) = false →
        postgres.execContent w content = w.TxExec [] content ∧
        Event.txExec content ∈ (postgres.Migrate w L f).events)) := by
  refine ⟨txDisabled_iff_spec content, ?_, ?_, ?_⟩
  · intro hno
    rw [fileOptions_eq]
    by_cases hp : "-- ".toList.isPrefixOf (firstLineOf content) = true
    · obtain ⟨opts, hopts⟩ := List.isPrefixOf_iff_prefix.mp hp
      exact absurd ⟨opts, hopts.symm⟩ hno
    · rw [if_neg hp]
  · intro rest
    rw [fileOptions_eq, fileOptions_eq content, firstLineOf_append]
  · intro w L L1 f hb hm hrc
    obtain ⟨hex, hstep⟩ := postgres_content_step w L L1 f content hb hm hrc
    refine ⟨hex, fun ht => ?_, fun hf => ?_⟩
    · simp only [postgres.execStep, postgres.execContent, ht, if_true] at hstep ⊢
      exact ⟨trivial, hstep⟩
    · simp only [postgres.execStep, postgres.execContent, hf] at hstep ⊢
      exact ⟨by simp, by simpa using hstep⟩

/-- C11 at the content `-- disable_ddl_transaction` followed by the line `a`, in a
world in which every operation succeeds. -/
theorem directive_first_line_witness :
    executed (postgres.Migrate quietWorld [] upFileNoTx).events = [upFileNoTx.Content] ∧
    (postgres.txDisabled (postgres.fileOptions upFileNoTx.Content) = true →
      postgres.execContent quietWorld upFileNoTx.Content =
        quietWorld.DbExec [] upFileNoTx.Content ∧
      Event.dbExec upFileNoTx.Content ∈ (postgres.Migrate quietWorld [] upFileNoTx).events) ∧
    (postgres.txDisabled (postgres.fileOptions upFileNoTx.Content) = false →
      postgres.execContent quietWorld upFileNoTx.Content =
        quietWorld.TxExec [] upFileNoTx.Content ∧
      Event.txExec upFileNoTx.Content ∈ (postgres.Migrate quietWorld [] upFileNoTx).events) :=
  (directive_first_line upFileNoTx.Content).2.2.2 quietWorld [] [1] upFileNoTx rfl rfl rfl

/-! ## mysql and phoenix: the line number of the composed error -/

/-- A trimmed text does not start with white space. -/
theorem TrimSpace_head (s : Text) (c : Char) (cs : Text) (h : TrimSpace s = c :: cs) :
    IsSpace c = false := by
  obtain ⟨r, hr⟩ := List.rdropWhile_prefix IsSpace (s.dropWhile IsSpace)
  rw [← TrimSpace_eq, h] at hr
  have := List.head?_dropWhile_not IsSpace s
  rw [← hr] at this
  simpa using this

theorem TrimSpace_cons_ne_nil (c : Char) (x : Text) (hc : IsSpace c = false) :
    TrimSpace (c :: x) ≠ [] := by
  intro h
  rw [TrimSpace_eq] at h
  have hd : (c :: x).dropWhile IsSpace = c :: x := by simp [List.dropWhile, hc]
  rw [hd, List.rdropWhile_eq_nil_iff] at h
  have := h c (List.mem_cons_self _ _)
  rw [hc] at this
  exact absurd this (by decide)

theorem stripCR_cons (c : Char) (x : Text) (hc : IsSpace c = false) :
    ∃ y, stripCR (c :: x) = c :: y := by
  unfold stripCR
  split
  · rename_i hlast
    cases x with
    | nil =>
      simp at hlast
      rw [hlast] at hc
      exact absurd hc (by decide)
    | cons d x => exact ⟨(d :: x).dropLast, rfl⟩
  · exact ⟨x, rfl⟩

/-- The offset counted on a text that does not start with white space is 0. -/
theorem wsLineOffset_cons (c : Char) (cs : Text) (hc : IsSpace c = false) :
    wsLineOffset (c :: cs) = 0 := by
  have hnl : c ≠ '\n' := by
    intro h
    rw [h] at hc
    exact absurd hc (by decide)
  unfold wsLineOffset readLines
  unfold Split
  rw [if_neg hnl]
  cases hs : Split cs '\n' with
  | nil => exact absurd hs (Split_ne_nil cs '\n')
  | cons frag frags =>
    simp only
    cases frags with
    | nil =>
      simp [readLinesOf, countBlankLines, TrimSpace_cons_ne_nil c frag hc]
    | cons frag2 frags =>
      obtain ⟨y, hy⟩ := stripCR_cons c frag hc
      simp [readLinesOf, countBlankLines, hy, TrimSpace_cons_ne_nil c y hc]

/-- The offset the mysql and phoenix drivers count is 0 for every fragment of a file:
it is counted on the trimmed statement. -/
theorem wsLineOffset_trimmed (frag : Text) : wsLineOffset (TrimSpace frag) = 0 := by
  cases h : TrimSpace frag with
  | nil => rfl
  | cons c cs => exact wsLineOffset_cons c cs (TrimSpace_head frag c cs h)

/-- C12, at the input where the code breaks it: the statement `b` of the file
`a;\n\nb` lost two leading blank lines when it was split out; it fails with a native
error that reports line 1, and the error the mysql and phoenix drivers write still
says `at line 1`, not `at line 3`. -/
theorem line_number_without_offset :
    Split upFileBlank.Content ';' = ["a".toList, "\n\nb".toList] ∧
    TrimSpace "\n\nb".toList = "b".toList ∧
    leadingBlankLines "\n\nb".toList = 2 ∧
    mysql.FindStringSubmatch lineError.Message = some "1".toList ∧
    phoenix.FindStringSubmatch lineError.Message = some "1".toList ∧
    (mysql.Migrate lineFailureWorld [] upFileBlank).events =
      [Event.send (Message.file upFileBlank), Event.begin, Event.insertVersion 1,
        Event.readContent, Event.txExec "a".toList, Event.txExec "b".toList,
        Event.send (Message.diagnostic lineError "b".toList), Event.rollback,
        Event.close] ∧
    (phoenix.Migrate lineFailureWorld [] upFileBlank).events =
      (mysql.Migrate lineFailureWorld [] upFileBlank).events ∧
    (∀ ctx : ContextWindow, mysql.diagnosticText ctx lineError "b".toList =
      "Error 1064: You have an error in your SQL syntax near b at line 1".toList ++
        "\n\n".toList ++ ctx "b".toList 1 5 5 true) ∧
    (∀ ctx : ContextWindow, phoenix.diagnosticText ctx lineError "b".toList =
      "Error 1064: You have an error in your SQL syntax near b at line 1".toList ++
        "\n\n".toList ++ ctx "b".toList 1 5 5 true) := by
  refine ⟨by decide, by decide, by decide, by decide, by decide, by decide, by decide,
    fun ctx => ?_, fun ctx => ?_⟩
  · have h1 : mysql.FindStringSubmatch lineError.Message = some "1".toList := by decide
    have h2 : Atoi "1".toList = some 1 := by decide
    have h3 : mysql.ReplaceAllString lineError.ErrorText
        (atLineText (1 + wsLineOffset "b".toList)) =
        "Error 1064: You have an error in your SQL syntax near b at line 1".toList := by
      decide
    simp only [mysql.diagnosticText, h1, h2, h3]
  · have h1 : phoenix.FindStringSubmatch lineError.Message = some "1".toList := by decide
    have h2 : Atoi "1".toList = some 1 := by decide
    have h3 : phoenix.ReplaceAllString lineError.ErrorText
        (atLineText (1 + wsLineOffset "b".toList)) =
        "Error 1064: You have an error in your SQL syntax near b at line 1".toList := by
      decide
    simp only [phoenix.diagnosticText, h1, h2, h3]

/-- C13, at the input where the code breaks it: the statement `a` fails with a native
error whose message holds no line number; the pattern does not match, and the error
the mysql and phoenix drivers write is the native error text followed by an empty
line and the context window of line 0, not the native error text alone. -/
theorem no_line_number_context_appended :
    mysql.FindStringSubmatch noLineError.Message = none ∧
    phoenix.FindStringSubmatch noLineError.Message = none ∧
    (mysql.Migrate noLineFailureWorld [] upFileA).events =
      [Event.send (Message.file upFileA), Event.begin, Event.insertVersion 1,
        Event.readContent, Event.txExec "a".toList,
        Event.send (Message.diagnostic noLineError "a".toList), Event.rollback,
        Event.close] ∧
    (phoenix.Migrate noLineFailureWorld [] upFileA).events =
      (mysql.Migrate noLineFailureWorld [] upFileA).events ∧
    (∀ ctx : ContextWindow,
      mysql.diagnosticText ctx noLineError "a".toList =
        noLineError.ErrorText ++ "\n\n".toList ++ ctx "a".toList 0 5 5 true ∧
      mysql.diagnosticText ctx noLineError "a".toList ≠ noLineError.ErrorText) ∧
    (∀ ctx : ContextWindow,
      phoenix.diagnosticText ctx noLineError "a".toList =
        noLineError.ErrorText ++ "\n\n".toList ++ ctx "a".toList 0 5 5 true ∧
      phoenix.diagnosticText ctx noLineError "a".toList ≠ noLineError.ErrorText) := by
  refine ⟨by decide, by decide, by decide, by decide, fun ctx => ?_, fun ctx => ?_⟩
  · have h1 : mysql.FindStringSubmatch noLineError.Message = none := by decide
    have h3 : mysql.ReplaceAllString noLineError.ErrorText
        (atLineText (0 + wsLineOffset "a".toList)) = noLineError.ErrorText := by decide
    have h4 : mysql.diagnosticText ctx noLineError "a".toList =
        noLineError.ErrorText ++ "\n\n".toList ++ ctx "a".toList 0 5 5 true := by
      simp only [mysql.diagnosticText, h1, h3]
    refine ⟨h4, ?_⟩
    rw [h4, List.append_assoc]
    intro h
    have := List.append_right_eq_self.mp h
    simp at this
  · have h1 : phoenix.FindStringSubmatch noLineError.Message = none := by decide
    have h3 : phoenix.ReplaceAllString noLineError.ErrorText
        (atLineText (0 + wsLineOffset "a".toList)) = noLineError.ErrorText := by decide
    have h4 : phoenix.diagnosticText ctx noLineError "a".toList =
        noLineError.ErrorText ++ "\n\n".toList ++ ctx "a".toList 0 5 5 true := by
      simp only [phoenix.diagnosticText, h1, h3]
    refine ⟨h4, ?_⟩
    rw [h4, List.append_assoc]
    intro h
    have := List.append_right_eq_self.mp h
    simp at this

/-! ## The end of the transaction -/

theorem rollback_mem_rollbackSteps (w : World) : Event.rollback ∈ rollbackSteps w := by
  unfold rollbackSteps
  cases w.Rollback <;> simp

theorem mysql_execStmts_rollback (w : World) (stmts done : List Text)
    (h : (mysql.execStmts w stmts done).2 = true) :
    Event.rollback ∈ (mysql.execStmts w stmts done).1 := by
  induction stmts generalizing done with
  | nil => simp [mysql.execStmts] at h
  | cons frag stmts ih =>
    unfold mysql.execStmts at h ⊢
    simp only at h ⊢
    split
    · split
      · simp [rollback_mem_rollbackSteps]
      · rename_i hx
        rw [if_pos (by assumption), hx] at h
        exact List.mem_cons_of_mem _ (ih _ h)
      · rename_i hx
        rw [if_pos (by assumption), hx] at h
        exact List.mem_cons_of_mem _ (ih _ h)
    · rw [if_neg (by assumption)] at h
      exact ih _ h

/-- On the paths of the mysql driver on which the transaction begins and `ReadContent`
does not fail, the transaction is ended by a commit or a rollback. -/
theorem mysql_transaction_ended (w : World) (L : Ledger) (f : File) (content : Text)
    (hb : w.Begin = none) (hrc : w.ReadContent f = Except.ok content) :
    Event.commit ∈ (mysql.Migrate w L f).events ∨
      Event.rollback ∈ (mysql.Migrate w L f).events := by
  unfold mysql.Migrate mysql.body Outcome.deferClose
  simp only [hb]
  cases mutateLedger w L f with
  | error err => exact Or.inr (by simp [rollback_mem_rollbackSteps])
  | ok L1 =>
    simp only [hrc]
    cases hl : (mysql.execStmts w (Split content ';') []).2 with
    | true =>
      have := mysql_execStmts_rollback w _ _ hl
      exact Or.inr (by simp [this])
    | false =>
      cases w.Commit with
      | some err => exact Or.inl (by simp)
      | none => exact Or.inl (by simp)

/-- On the paths of the postgres driver on which the transaction begins, `ReadContent`
does not fail and the call returns, the transaction is ended by a commit or a
rollback. -/
theorem postgres_transaction_ended (w : World) (L : Ledger) (f : File) (content : Text)
    (hb : w.Begin = none) (hrc : w.ReadContent f = Except.ok content)
    (hret : (postgres.Migrate w L f).returned = true) :
    Event.commit ∈ (postgres.Migrate w L f).events ∨
      Event.rollback ∈ (postgres.Migrate w L f).events := by
  unfold postgres.Migrate postgres.body at hret ⊢
  simp only [hb] at hret ⊢
  cases hm : mutateLedger w L f with
  | error err => exact Or.inr (by simp [Outcome.deferClose, rollback_mem_rollbackSteps])
  | ok L1 =>
    rw [hm] at hret
    simp only [hrc] at hret ⊢
    cases hx : postgres.execContent w content with
    | some err =>
      rw [hx] at hret
      cases err with
      | native pqErr =>
        exact Or.inr (by simp [Outcome.deferClose, rollback_mem_rollbackSteps])
      | other text => simp [returned_append_close] at hret
    | none =>
      cases w.Commit with
      | some err => exact Or.inl (by simp [Outcome.deferClose])
      | none => exact Or.inl (by simp [Outcome.deferClose])

/-- C14, at the input where the code breaks it: the transaction begins and the insert
into `schema_migrations` succeeds, then `ReadContent` fails; the mysql, phoenix and
postgres drivers write the error and return with neither a commit nor a rollback. -/
theorem transaction_left_open :
    readFailureWorld.Begin = none ∧
    (mysql.Migrate readFailureWorld [] upFileA).events =
      [Event.send (Message.file upFileA), Event.begin, Event.insertVersion 1,
        Event.readContent, Event.send (Message.error plainError), Event.close] ∧
    (phoenix.Migrate readFailureWorld [] upFileA).events =
      [Event.send (Message.file upFileA), Event.begin, Event.insertVersion 1,
        Event.readContent, Event.send (Message.error plainError), Event.close] ∧
    (postgres.Migrate readFailureWorld [] upFileA).events =
      [Event.send (Message.file upFileA), Event.begin, Event.insertVersion 1,
        Event.readContent, Event.send (Message.error plainError), Event.close] ∧
    Event.commit ∉ (mysql.Migrate readFailureWorld [] upFileA).events ∧
    Event.rollback ∉ (mysql.Migrate readFailureWorld [] upFileA).events := by
  decide

end Migrate
